import Mathlib

/-!
# el_ratio: the leaky-bucket limiter of rater.go

A shallow embedding of `NewLeakyBucketLimiter` and `LeakybuckerLimiter.Wait`.

Conventions of the embedding:

* `time.Duration` is a signed 64-bit count of nanoseconds.  It is an `Int`, and every
  arithmetic operation the source performs on durations is followed by `wrap64`
  (two's-complement wrap-around), as Go integer arithmetic does.
* `time.Time` is an `Int`: the number of nanoseconds since the zero instant `time.Time{}`
  (January 1, year 1, 00:00:00 UTC), the instant `IsZero` recognises.  `Time.Sub` saturates
  at the smallest and largest duration, as the library does; `Time.Add` is exact.  The
  (far larger) range of the seconds counter of `time.Time` is not modelled.
* The clock (`clock.Clock`) is external: every reading of `Now` is an input of the model.
* `atomic.LoadPointer` and `atomic.CompareAndSwapPointer` are sequentially consistent; the
  shared pointer is modelled as the identity of the record it points to.
-/

namespace ElRatio

/-- Smallest duration, `-2^63` nanoseconds. -/
def minDuration : Int := -9223372036854775808

/-- Largest duration, `2^63 - 1` nanoseconds. -/
def maxDuration : Int := 9223372036854775807

/-- Two's-complement wrap-around of an integer to 64 bits. -/
def wrap64 (x : Int) : Int :=
  (x + 9223372036854775808) % 18446744073709551616 - 9223372036854775808

/-- The value is representable as a signed 64-bit integer. -/
def InInt64 (x : Int) : Prop := minDuration ≤ x ∧ x ≤ maxDuration

instance (x : Int) : Decidable (InInt64 x) := by
  unfold InInt64; exact inferInstance

/-- Go `a + b` on durations. -/
def Duration.add (a b : Int) : Int := wrap64 (a + b)

/-- Go `a - b` on durations. -/
def Duration.sub (a b : Int) : Int := wrap64 (a - b)

/-- Go `a / b` on durations: truncated division, a run-time panic (`none`) when `b` is zero. -/
def Duration.div (a b : Int) : Option Int :=
  if b = 0 then none else some (wrap64 (Int.tdiv a b))

/-- `t.IsZero()`. -/
def Time.IsZero (t : Int) : Bool := decide (t = 0)

/-- `t.Sub(u)`: the duration `t - u`, saturated at `minDuration` and `maxDuration`. -/
def Time.Sub (t u : Int) : Int :=
  if maxDuration < t - u then maxDuration
  else if t - u < minDuration then minDuration
  else t - u

/-- `t.Add(d)`. -/
def Time.Add (t : Int) (d : Int) : Int := t + d

/-- The record `state` of rater.go. -/
structure state where
  lastTick : Int
  sleepfor : Int
  deriving DecidableEq, Repr

/-- The limiter: `state` is the record the atomic pointer refers to; the clock is external. -/
structure LeakybuckerLimiter where
  state : state
  timePerActions : Int
  slack : Int
  deriving DecidableEq, Repr

/-- `NewLeakyBucketLimiter(rate, perTime)`.  The only failure is the run-time panic of the
integer division when `rate` is zero, rendered as `none`. -/
def NewLeakyBucketLimiter (rate : Int) (perTime : Int) : Option LeakybuckerLimiter :=
  match Duration.div perTime rate with
  | none => none
  | some q =>
    some { timePerActions := q
           slack := 10
           state := { lastTick := 0, sleepfor := 0 } }

/-- The variables of `Wait` that live across iterations of its loop. -/
structure Locals where
  newState : state
  interval : Int
  deriving DecidableEq, Repr

/-- The zero values `Wait` starts with. -/
def Locals.zero : Locals := { newState := { lastTick := 0, sleepfor := 0 }, interval := 0 }

/-- One iteration of the loop of `Wait` up to (not including) its compare-and-swap:
`now` is the clock reading and `old` the record loaded from the shared pointer. -/
def loopBody (l : LeakybuckerLimiter) (loc : Locals) (now : Int) (old : state) : Locals :=
  let newState : state := { lastTick := now, sleepfor := old.sleepfor }
  if Time.IsZero old.lastTick then
    { newState := newState, interval := loc.interval }
  else
    let newState : state :=
      { newState with
        sleepfor := Duration.add newState.sleepfor
          (Duration.sub l.timePerActions (Time.Sub now old.lastTick)) }
    let newState : state :=
      if newState.sleepfor < l.slack then { newState with sleepfor := l.slack } else newState
    if newState.sleepfor > 0 then
      { newState := { lastTick := Time.Add newState.lastTick newState.sleepfor, sleepfor := 0 }
        interval := newState.sleepfor }
    else
      { newState := newState, interval := loc.interval }

/-- What one iteration of `Wait` observes: the clock reading, the record it loaded, and
whether its compare-and-swap succeeded. -/
structure Attempt where
  now : Int
  old : state
  swapped : Bool
  deriving DecidableEq, Repr

/-- The loop of `Wait`: it runs iterations until a compare-and-swap succeeds.  `none` when the
observed attempts end without a success (the loop is still running). -/
def waitLoop (l : LeakybuckerLimiter) : Locals → List Attempt → Option Locals
  | _, [] => none
  | loc, a :: rest =>
    let loc1 := loopBody l loc a.now a.old
    if a.swapped then some loc1 else waitLoop l loc1 rest

/-- The outcome of a call of `Wait`. -/
structure WaitResult where
  slept : Int
  returned : Int
  published : state
  deriving DecidableEq, Repr

/-- `l.Wait()` against the attempts its loop goes through: the duration passed to
`timer.Sleep`, the returned `newState.lastTick`, and the record its winning
compare-and-swap stored. -/
def Wait (l : LeakybuckerLimiter) (attempts : List Attempt) : Option WaitResult :=
  (waitLoop l Locals.zero attempts).map fun loc =>
    { slept := loc.interval, returned := loc.newState.lastTick, published := loc.newState }

/-- The record a winning iteration stores, from the record `old` it replaces and its clock
reading. -/
def update (l : LeakybuckerLimiter) (old : state) (now : Int) : state :=
  (loopBody l Locals.zero now old).newState

/-- The record reached from the one the limiter was built with after successive winning
updates with the given clock readings. -/
def reach (l : LeakybuckerLimiter) (nows : List Int) : state :=
  nows.foldl (update l) l.state

/-- A single caller with a clock that only `Sleep` advances: the limiter and the clock. -/
structure Solo where
  lim : LeakybuckerLimiter
  clock : Int
  deriving DecidableEq, Repr

/-- One uncontended call of `Wait`: the compare-and-swap of the first iteration succeeds,
and `Sleep(d)` advances the clock by exactly `d`. -/
def Solo.wait (w : Solo) : Int × Solo :=
  let loc := loopBody w.lim Locals.zero w.clock w.lim.state
  (loc.newState.lastTick,
    { lim := { w.lim with state := loc.newState }, clock := w.clock + loc.interval })

/-- The timestamps returned by `n` successive uncontended calls. -/
def Solo.waits : Nat → Solo → List Int
  | 0, _ => []
  | n + 1, w => (Solo.wait w).1 :: Solo.waits n (Solo.wait w).2

/-! ## Concurrent callers

Every caller runs `Wait` once.  A caller takes two kinds of atomic steps: `load`, which
reads the clock, loads the shared pointer and runs the loop body on the record it points to,
and `cas`, the compare-and-swap that ends the iteration.  A pointer is the identity of the
record it points to: `0` is the record stored by `NewLeakyBucketLimiter`, `i + 1` is the
variable `newState` of caller `i`.  A record is only written by its owner, and never after
it has been stored in the shared pointer, so reading it with the load is the same as reading
it later in the iteration. -/

/-- The iteration a caller is in, between its load and its compare-and-swap. -/
structure Pending where
  prev : Nat
  now : Int
  old : state
  deriving DecidableEq, Repr

/-- One caller of `Wait`: its local variables, the loop flag `allowed`, the iteration under
way, and the attempts it has completed (kept for reference only). -/
structure Caller where
  loc : Locals
  allowed : Bool
  pending : Option Pending
  seen : List Attempt
  deriving DecidableEq, Repr

/-- A successful compare-and-swap: who made it, the pointer it replaced, the clock reading
of its iteration. -/
structure Win where
  caller : Nat
  prev : Nat
  now : Int
  deriving DecidableEq, Repr

/-- The limiter under concurrent callers: the shared pointer, the callers, and the log of
successful compare-and-swaps in the order they happened. -/
structure Shared where
  ptr : Nat
  callers : List Caller
  wins : List Win
  deriving DecidableEq, Repr

/-- A caller that has just entered `Wait`. -/
def Caller.start : Caller :=
  { loc := Locals.zero, allowed := false, pending := none, seen := [] }

/-- What a caller that left the loop passes to `Sleep` and returns. -/
def Caller.result (c : Caller) : Option WaitResult :=
  if c.allowed then
    some { slept := c.loc.interval, returned := c.loc.newState.lastTick
           published := c.loc.newState }
  else none

/-- A freshly built limiter with `m` callers entering `Wait`. -/
def Shared.init (m : Nat) : Shared :=
  { ptr := 0, callers := List.replicate m Caller.start, wins := [] }

/-- The record a pointer refers to. -/
def deref (l : LeakybuckerLimiter) (cs : List Caller) : Nat → state
  | 0 => l.state
  | i + 1 =>
    match cs[i]? with
    | some c => c.loc.newState
    | none => l.state

/-- The atomic steps of the callers. -/
inductive Step where
  | load (i : Nat) (now : Int)
  | cas (i : Nat)
  deriving DecidableEq, Repr

/-- One atomic step; `none` when the caller cannot take it. -/
def Shared.step (l : LeakybuckerLimiter) (s : Shared) : Step → Option Shared
  | Step.load i now =>
    match s.callers[i]? with
    | none => none
    | some c =>
      if c.allowed = true ∨ c.pending.isSome = true then none
      else
        some { s with
          callers := s.callers.set i
            { c with
              loc := loopBody l c.loc now (deref l s.callers s.ptr)
              pending := some { prev := s.ptr, now := now, old := deref l s.callers s.ptr } } }
  | Step.cas i =>
    match s.callers[i]? with
    | none => none
    | some c =>
      match c.pending with
      | none => none
      | some p =>
        if s.ptr = p.prev then
          some { ptr := i + 1
                 callers := s.callers.set i
                   { c with
                     allowed := true
                     pending := none
                     seen := c.seen ++ [{ now := p.now, old := p.old, swapped := true }] }
                 wins := s.wins ++ [{ caller := i, prev := p.prev, now := p.now }] }
        else
          some { s with
            callers := s.callers.set i
              { c with
                pending := none
                seen := c.seen ++ [{ now := p.now, old := p.old, swapped := false }] } }

/-- A schedule: the steps taken one after the other. -/
def Shared.run (l : LeakybuckerLimiter) : Shared → List Step → Option Shared
  | s, [] => some s
  | s, a :: rest =>
    match s.step l a with
    | none => none
    | some s1 => Shared.run l s1 rest

/-- One operation per second: the limiter `NewLeakyBucketLimiter(1, time.Second)` of the
test. -/
def perSecond : LeakybuckerLimiter :=
  { state := { lastTick := 0, sleepfor := 0 }, timePerActions := 1000000000, slack := 10 }

/-- A schedule of three callers: caller 0 loads first, loses its compare-and-swap to caller
1, and wins last, after caller 2. -/
def threeCallers : List Step :=
  [Step.load 0 100, Step.load 1 105, Step.cas 1, Step.cas 0, Step.load 2 110, Step.cas 2,
    Step.load 0 120, Step.cas 0]

/-- Caller 0 at the end of `threeCallers`: one failed attempt, then the winning one. -/
def lateCaller : Caller :=
  { loc := { newState := { lastTick := 2000000105, sleepfor := 0 }, interval := 1999999985 }
    allowed := true
    pending := none
    seen := [{ now := 100, old := { lastTick := 0, sleepfor := 0 }, swapped := false },
             { now := 120, old := { lastTick := 1000000105, sleepfor := 0 }, swapped := true }] }

/-- The state `threeCallers` ends in. -/
def threeCallersEnd : Shared :=
  { ptr := 1
    callers :=
      [lateCaller,
       { loc := { newState := { lastTick := 105, sleepfor := 0 }, interval := 0 }
         allowed := true
         pending := none
         seen := [{ now := 105, old := { lastTick := 0, sleepfor := 0 }, swapped := true }] },
       { loc := { newState := { lastTick := 1000000105, sleepfor := 0 }, interval := 999999995 }
         allowed := true
         pending := none
         seen := [{ now := 110, old := { lastTick := 105, sleepfor := 0 }, swapped := true }] }]
    wins := [{ caller := 1, prev := 0, now := 105 }, { caller := 2, prev := 2, now := 110 },
             { caller := 0, prev := 3, now := 120 }] }

/-- The pointer refers to a record that has been stored in the shared pointer: the record
of the constructor, or the `newState` of a caller that has left its loop. -/
def Published (cs : List Caller) (p : Nat) : Prop :=
  p = 0 ∨ ∃ i c, p = i + 1 ∧ cs[i]? = some c ∧ c.allowed = true

/-- The invariant of the concurrent callers, for `m` callers. -/
structure Shared.Inv (l : LeakybuckerLimiter) (m : Nat) (s : Shared) : Prop where
  len : s.callers.length = m
  pend : ∀ (i : Nat) (c : Caller),
    s.callers[i]? = some c → c.pending.isSome = true → c.allowed = false
  winDone : ∀ w ∈ s.wins, ∃ c, s.callers[w.caller]? = some c ∧ c.allowed = true
  doneWin : ∀ (i : Nat) (c : Caller),
    s.callers[i]? = some c → c.allowed = true → i ∈ s.wins.map Win.caller
  nodupCaller : (s.wins.map Win.caller).Nodup
  nodupPrev : (s.ptr :: s.wins.map Win.prev).Nodup
  pub : ∀ p ∈ s.ptr :: s.wins.map Win.prev, Published s.callers p
  pendOk : ∀ (i : Nat) (c : Caller) (p : Pending),
    s.callers[i]? = some c → c.pending = some p →
    Published s.callers p.prev ∧ p.old = deref l s.callers p.prev ∧
      c.loc.newState = update l p.old p.now
  lin : deref l s.callers s.ptr = reach l (s.wins.map Win.now)

/-- The local variables after the given completed attempts. -/
def replay (l : LeakybuckerLimiter) (seen : List Attempt) : Locals :=
  seen.foldl (fun loc a => loopBody l loc a.now a.old) Locals.zero

/-- What holds of a caller by its own steps alone: its local variables are those of the
loop run over its attempts, all attempts but the last have failed, and it has left the loop
exactly when the last one succeeded. -/
structure Caller.Local (l : LeakybuckerLimiter) (c : Caller) : Prop where
  failed : c.allowed = false → ∀ a ∈ c.seen, a.swapped = false
  done : c.allowed = true → c.pending = none ∧
    ∃ failed win, c.seen = failed ++ [win] ∧ win.swapped = true ∧
      ∀ a ∈ failed, a.swapped = false
  locals : c.loc =
    match c.pending with
    | none => replay l c.seen
    | some p => loopBody l (replay l c.seen) p.now p.old

/-- A bound on the steps a caller can still take, among `m` callers: none once it has left
the loop; otherwise `2 * m` for the compare-and-swaps of others that can make it retry, plus
2 before a load, 1 before a compare-and-swap that will succeed, 3 before one that fails. -/
def Caller.fuel (m : Nat) (ptr : Nat) (c : Caller) : Nat :=
  if c.allowed then 0
  else 2 * m + (match c.pending with
    | none => 2
    | some p => if p.prev = ptr then 1 else 3)

/-- A bound on the steps the callers can still take. -/
def Shared.fuel (s : Shared) : Nat :=
  (s.callers.map (Caller.fuel s.callers.length s.ptr)).sum

/-- The value of `newState.sleepfor` after the addition of line 119. -/
def debt (l : LeakybuckerLimiter) (old : state) (now : Int) : Int :=
  Duration.add old.sleepfor (Duration.sub l.timePerActions (Time.Sub now old.lastTick))

/-- The value of `newState.sleepfor` after the clamp of lines 121 to 123. -/
def clamped (l : LeakybuckerLimiter) (old : state) (now : Int) : Int :=
  if debt l old now < l.slack then l.slack else debt l old now

/-- The sleep of a subsequent call as the specification words it, in exact integers:
`max(slack, pendingSleep + interval - (now - lastTick))`. -/
def specDelay (l : LeakybuckerLimiter) (old : state) (now : Int) : Int :=
  max l.slack (old.sleepfor + l.timePerActions - (now - old.lastTick))

/-- The interval an iteration computes: zero on the first-call branch, the clamped debt on
the subsequent-call branch. -/
def winInterval (l : LeakybuckerLimiter) (old : state) (now : Int) : Int :=
  if old.lastTick = 0 then 0 else clamped l old now

/-- What holds of the callers when no clock reading is before the zero instant: a caller
whose `interval` is set has seen a record that is not the zero instant, the shared record
then is not the zero instant either, and so `interval` is never stale. -/
structure Shared.Clocked (l : LeakybuckerLimiter) (s : Shared) : Prop where
  pendNow : ∀ (i : Nat) (c : Caller) (p : Pending),
    s.callers[i]? = some c → c.pending = some p → 0 ≤ p.now
  stale : ∀ (i : Nat) (c : Caller),
    s.callers[i]? = some c → c.loc.interval ≠ 0 → (deref l s.callers s.ptr).lastTick ≠ 0
  pendRes : ∀ (i : Nat) (c : Caller) (p : Pending),
    s.callers[i]? = some c → c.pending = some p →
      c.loc.interval = winInterval l p.old p.now ∧
        c.loc.newState.lastTick = p.now + c.loc.interval
  doneRes : ∀ (i : Nat) (c : Caller),
    s.callers[i]? = some c → c.allowed = true →
      ∃ failed win, c.seen = failed ++ [win] ∧ win.swapped = true ∧
        c.loc.interval = winInterval l win.old win.now ∧
        c.loc.newState.lastTick = win.now + c.loc.interval

/-! ## Arithmetic of durations -/

theorem wrap64_inInt64 (x : Int) : InInt64 (wrap64 x) := by
  unfold InInt64 wrap64 minDuration maxDuration
  omega

theorem wrap64_eq_self {x : Int} (h : InInt64 x) : wrap64 x = x := by
  unfold InInt64 minDuration maxDuration at h
  unfold wrap64
  omega

theorem wrap64_add_wrap64 (a b : Int) : wrap64 (a + wrap64 b) = wrap64 (a + b) := by
  unfold wrap64
  omega

theorem timeSub_eq_sub {t u : Int} (h : InInt64 (t - u)) : Time.Sub t u = t - u := by
  unfold InInt64 at h
  unfold Time.Sub
  rw [if_neg (by omega), if_neg (by omega)]

theorem timeSub_inInt64 (t u : Int) : InInt64 (Time.Sub t u) := by
  unfold Time.Sub InInt64
  unfold minDuration maxDuration
  split_ifs <;> omega

/-! ## The loop body -/

theorem slack_le_clamped (l : LeakybuckerLimiter) (old : state) (now : Int) :
    l.slack ≤ clamped l old now := by
  unfold clamped
  split_ifs <;> omega

theorem loopBody_first (l : LeakybuckerLimiter) (loc : Locals) (now : Int) (old : state)
    (h : old.lastTick = 0) :
    loopBody l loc now old =
      { newState := { lastTick := now, sleepfor := old.sleepfor }, interval := loc.interval } := by
  simp [loopBody, Time.IsZero, h]

theorem loopBody_next (l : LeakybuckerLimiter) (loc : Locals) (now : Int) (old : state)
    (h : old.lastTick ≠ 0) (hs : 0 < l.slack) :
    loopBody l loc now old =
      { newState := { lastTick := now + clamped l old now, sleepfor := 0 },
        interval := clamped l old now } := by
  have hc := slack_le_clamped l old now
  have hpos : 0 < clamped l old now := by omega
  unfold clamped debt at hpos
  unfold loopBody clamped debt
  simp only [Time.IsZero, h, decide_False, Bool.false_eq_true, if_false, Time.Add]
  split_ifs at hpos ⊢ <;> rfl

theorem NewLeakyBucketLimiter_eq (rate : Int) (perTime : Int) :
    NewLeakyBucketLimiter rate perTime =
      if rate = 0 then none
      else some { state := { lastTick := 0, sleepfor := 0 }
                  timePerActions := wrap64 (Int.tdiv perTime rate)
                  slack := 10 } := by
  unfold NewLeakyBucketLimiter Duration.div
  split_ifs <;> rfl

theorem slack_of_new {rate : Int} {perTime : Int} {l : LeakybuckerLimiter}
    (h : NewLeakyBucketLimiter rate perTime = some l) : l.slack = 10 := by
  rw [NewLeakyBucketLimiter_eq] at h
  split_ifs at h
  cases h
  rfl

theorem state_of_new {rate : Int} {perTime : Int} {l : LeakybuckerLimiter}
    (h : NewLeakyBucketLimiter rate perTime = some l) :
    l.state = { lastTick := 0, sleepfor := 0 } := by
  rw [NewLeakyBucketLimiter_eq] at h
  split_ifs at h
  cases h
  rfl

theorem interval_of_new {rate : Int} {perTime : Int} {l : LeakybuckerLimiter}
    (h : NewLeakyBucketLimiter rate perTime = some l) :
    l.timePerActions = wrap64 (Int.tdiv perTime rate) := by
  rw [NewLeakyBucketLimiter_eq] at h
  split_ifs at h
  cases h
  rfl

theorem clamped_eq_max (l : LeakybuckerLimiter) (old : state) (now : Int)
    (h1 : InInt64 (now - old.lastTick))
    (h2 : InInt64 (old.sleepfor + l.timePerActions - (now - old.lastTick))) :
    clamped l old now =
      max l.slack (old.sleepfor + l.timePerActions - (now - old.lastTick)) := by
  have hd : debt l old now = old.sleepfor + l.timePerActions - (now - old.lastTick) := by
    unfold debt Duration.add Duration.sub
    rw [wrap64_add_wrap64, timeSub_eq_sub h1]
    have : old.sleepfor + (l.timePerActions - (now - old.lastTick)) =
        old.sleepfor + l.timePerActions - (now - old.lastTick) := by ring
    rw [this, wrap64_eq_self h2]
  unfold clamped
  rw [hd]
  split_ifs with h
  · rw [max_eq_left (le_of_lt h)]
  · rw [max_eq_right (not_lt.mp h)]

theorem clamped_ge_exact (l : LeakybuckerLimiter) (old : state) (now : Int)
    (hs : l.slack = 10) (hT : InInt64 l.timePerActions) (h0 : old.sleepfor = 0)
    (hlo : minDuration ≤ now - old.lastTick)
    (hhi : l.timePerActions - (now - old.lastTick) ≤ maxDuration) :
    l.timePerActions - (now - old.lastTick) ≤ clamped l old now := by
  unfold InInt64 minDuration maxDuration at hT
  unfold minDuration at hlo
  unfold maxDuration at hhi
  unfold clamped debt Duration.add Duration.sub Time.Sub wrap64 minDuration maxDuration
  rw [hs, h0]
  split_ifs <;> omega

theorem update_first (l : LeakybuckerLimiter) (old : state) (now : Int)
    (h : old.lastTick = 0) :
    update l old now = { lastTick := now, sleepfor := old.sleepfor } := by
  unfold update
  rw [loopBody_first l _ now old h]

theorem update_next (l : LeakybuckerLimiter) (old : state) (now : Int)
    (h : old.lastTick ≠ 0) (hs : 0 < l.slack) :
    update l old now = { lastTick := now + clamped l old now, sleepfor := 0 } := by
  unfold update
  rw [loopBody_next l _ now old h hs]

theorem foldl_update_inv (l : LeakybuckerLimiter) (P : state → Prop) (Q : Int → Prop)
    (hstep : ∀ s now, P s → Q now → P (update l s now)) :
    ∀ (nows : List Int) (s : state), P s → (∀ t ∈ nows, Q t) →
      P (nows.foldl (update l) s) := by
  intro nows
  induction nows with
  | nil => intro s hs _; exact hs
  | cons t rest ih =>
    intro s hs hq
    rw [List.foldl_cons]
    exact ih _ (hstep s t hs (hq t (List.mem_cons_self t rest)))
      (fun u hu => hq u (List.mem_cons_of_mem t hu))

theorem reach_sleepfor (l : LeakybuckerLimiter) (hs : 0 < l.slack)
    (hst : l.state.sleepfor = 0) (nows : List Int) : (reach l nows).sleepfor = 0 := by
  unfold reach
  refine foldl_update_inv l (fun s => s.sleepfor = 0) (fun _ => True) ?_ nows l.state hst
    (fun _ _ => trivial)
  intro s now h0 _
  by_cases hz : s.lastTick = 0
  · rw [update_first l s now hz]; exact h0
  · rw [update_next l s now hz hs]

theorem reach_lastTick_nonneg (l : LeakybuckerLimiter) (hs : 0 < l.slack)
    (hst : 0 ≤ l.state.lastTick) (nows : List Int) (hn : ∀ t ∈ nows, 0 ≤ t) :
    0 ≤ (reach l nows).lastTick := by
  unfold reach
  refine foldl_update_inv l (fun s => 0 ≤ s.lastTick) (fun t => 0 ≤ t) ?_ nows l.state hst hn
  intro s now _ hnow
  by_cases hz : s.lastTick = 0
  · rw [update_first l s now hz]; exact hnow
  · rw [update_next l s now hz hs]
    have := slack_le_clamped l s now
    simp only
    omega

theorem waitLoop_win (l : LeakybuckerLimiter) (win : Attempt) (hw : win.swapped = true) :
    ∀ (failed : List Attempt) (loc : Locals), (∀ a ∈ failed, a.swapped = false) →
      ∃ loc1, waitLoop l loc (failed ++ [win]) = some (loopBody l loc1 win.now win.old) := by
  intro failed
  induction failed with
  | nil =>
    intro loc _
    exact ⟨loc, by simp [waitLoop, hw]⟩
  | cons a rest ih =>
    intro loc hf
    have ha : a.swapped = false := hf a (List.mem_cons_self a rest)
    obtain ⟨loc1, h1⟩ := ih (loopBody l loc a.now a.old)
      (fun b hb => hf b (List.mem_cons_of_mem a hb))
    exact ⟨loc1, by simp [waitLoop, ha, h1]⟩

theorem wait_next (l : LeakybuckerLimiter) (failed : List Attempt) (old : state) (now : Int)
    (hold : old.lastTick ≠ 0) (hs : 0 < l.slack) (hf : ∀ a ∈ failed, a.swapped = false) :
    Wait l (failed ++ [{ now := now, old := old, swapped := true }]) =
      some { slept := clamped l old now
             returned := now + clamped l old now
             published := { lastTick := now + clamped l old now, sleepfor := 0 } } := by
  obtain ⟨loc1, h1⟩ := waitLoop_win l { now := now, old := old, swapped := true } rfl
    failed Locals.zero hf
  unfold Wait
  rw [h1, loopBody_next l loc1 now old hold hs]
  rfl

/-! ## Concurrent callers: the invariant -/

theorem loopBody_newState (l : LeakybuckerLimiter) (loc : Locals) (now : Int) (old : state) :
    (loopBody l loc now old).newState = update l old now := by
  unfold update loopBody
  simp only
  split_ifs <;> rfl

theorem getElem?_set_of_some {cs : List Caller} {i : Nat} {c : Caller} (c1 : Caller)
    (j : Nat) (h : cs[i]? = some c) :
    (cs.set i c1)[j]? = if j = i then some c1 else cs[j]? := by
  obtain ⟨hi, -⟩ := List.getElem?_eq_some.1 h
  split_ifs with hj
  · subst hj
    exact List.getElem?_set_self hi
  · exact List.getElem?_set_ne (fun e => hj e.symm)

theorem published_set {cs : List Caller} {i : Nat} {c : Caller} (c1 : Caller) {q : Nat}
    (h : cs[i]? = some c) (hmono : c.allowed = true → c1.allowed = true)
    (hq : Published cs q) : Published (cs.set i c1) q := by
  rcases hq with h0 | ⟨k, ck, hk, hget, hall⟩
  · exact Or.inl h0
  · by_cases hki : k = i
    · subst hki
      rw [h] at hget
      cases hget
      exact Or.inr ⟨k, c1, hk, by rw [getElem?_set_of_some c1 k h, if_pos rfl], hmono hall⟩
    · exact Or.inr ⟨k, ck, hk, by rw [getElem?_set_of_some c1 k h, if_neg hki]; exact hget,
        hall⟩

theorem published_ne {cs : List Caller} {i : Nat} {c : Caller} {q : Nat}
    (h : cs[i]? = some c) (hc : c.allowed = false) (hq : Published cs q) : q ≠ i + 1 := by
  rcases hq with h0 | ⟨k, ck, hk, hget, hall⟩
  · omega
  · intro e
    have hki : k = i := by omega
    subst hki
    rw [h] at hget
    cases hget
    rw [hc] at hall
    cases hall

theorem deref_set {cs : List Caller} {i : Nat} {c : Caller} (l : LeakybuckerLimiter)
    (c1 : Caller) {q : Nat} (h : cs[i]? = some c) (hq : q ≠ i + 1 ∨ c1.loc = c.loc) :
    deref l (cs.set i c1) q = deref l cs q := by
  cases q with
  | zero => rfl
  | succ k =>
    simp only [deref]
    rw [getElem?_set_of_some c1 k h]
    split_ifs with hk
    · subst hk
      rcases hq with hne | hloc
      · exact absurd rfl hne
      · rw [h]
        simp only [hloc]
    · rfl

theorem inv_load {l : LeakybuckerLimiter} {m : Nat} {s : Shared} {i : Nat} {c : Caller}
    (hinv : Shared.Inv l m s) (h : s.callers[i]? = some c) (ha : c.allowed = false)
    (now : Int) :
    Shared.Inv l m
      { s with
        callers := s.callers.set i
          { c with
            loc := loopBody l c.loc now (deref l s.callers s.ptr)
            pending := some { prev := s.ptr, now := now, old := deref l s.callers s.ptr } } } := by
  have hmono : ∀ c1 : Caller, c.allowed = true → c1.allowed = true := by
    intro c1 hc; rw [ha] at hc; cases hc
  have hframe : ∀ q, Published s.callers q → ∀ c1 : Caller,
      deref l (s.callers.set i c1) q = deref l s.callers q :=
    fun q hq c1 => deref_set l c1 h (Or.inl (published_ne h ha hq))
  have hptr : Published s.callers s.ptr := hinv.pub s.ptr (List.mem_cons_self _ _)
  refine
    { len := by simpa using hinv.len
      pend := ?_, winDone := ?_, doneWin := ?_
      nodupCaller := hinv.nodupCaller
      nodupPrev := hinv.nodupPrev
      pub := fun q hq => published_set _ h (hmono _) (hinv.pub q hq)
      pendOk := ?_
      lin := by
        simp only
        rw [hframe s.ptr hptr]
        exact hinv.lin }
  · intro j cj hj hpj
    simp only [getElem?_set_of_some _ j h] at hj
    split_ifs at hj with hji
    · cases hj
      exact ha
    · exact hinv.pend j cj hj hpj
  · intro w hw
    obtain ⟨cw, hcw, hall⟩ := hinv.winDone w hw
    have hne : w.caller ≠ i := by
      intro e
      rw [e, h] at hcw
      cases hcw
      rw [ha] at hall
      cases hall
    exact ⟨cw, by simp only [getElem?_set_of_some _ w.caller h, if_neg hne]; exact hcw, hall⟩
  · intro j cj hj hall
    simp only [getElem?_set_of_some _ j h] at hj
    split_ifs at hj with hji
    · cases hj
      simp only at hall
      rw [ha] at hall
      cases hall
    · exact hinv.doneWin j cj hj hall
  · intro j cj pj hj hpj
    simp only [getElem?_set_of_some _ j h] at hj
    split_ifs at hj with hji
    · cases hj
      simp only [Option.some.injEq] at hpj
      subst hpj
      simp only
      exact ⟨published_set _ h (hmono _) hptr, (hframe s.ptr hptr _).symm,
        loopBody_newState l c.loc now _⟩
    · obtain ⟨h1, h2, h3⟩ := hinv.pendOk j cj pj hj hpj
      exact ⟨published_set _ h (hmono _) h1, by rw [hframe pj.prev h1]; exact h2, h3⟩

theorem inv_cas_lose {l : LeakybuckerLimiter} {m : Nat} {s : Shared} {i : Nat} {c : Caller}
    (hinv : Shared.Inv l m s) (h : s.callers[i]? = some c) (seen : List Attempt) :
    Shared.Inv l m
      { s with callers := s.callers.set i { c with pending := none, seen := seen } } := by
  have hframe : ∀ q, deref l
      (s.callers.set i { c with pending := none, seen := seen }) q = deref l s.callers q :=
    fun q => deref_set l _ h (Or.inr rfl)
  refine
    { len := by simpa using hinv.len
      pend := ?_, winDone := ?_, doneWin := ?_
      nodupCaller := hinv.nodupCaller
      nodupPrev := hinv.nodupPrev
      pub := fun q hq => published_set _ h (fun hc => hc) (hinv.pub q hq)
      pendOk := ?_
      lin := by
        simp only
        rw [hframe s.ptr]
        exact hinv.lin }
  · intro j cj hj hpj
    simp only [getElem?_set_of_some _ j h] at hj
    split_ifs at hj with hji
    · cases hj
      simp at hpj
    · exact hinv.pend j cj hj hpj
  · intro w hw
    obtain ⟨cw, hcw, hall⟩ := hinv.winDone w hw
    by_cases hwi : w.caller = i
    · rw [hwi, h] at hcw
      cases hcw
      exact ⟨{ c with pending := none, seen := seen },
        by simp only [getElem?_set_of_some _ w.caller h, if_pos hwi], hall⟩
    · exact ⟨cw, by simp only [getElem?_set_of_some _ w.caller h, if_neg hwi]; exact hcw, hall⟩
  · intro j cj hj hall
    simp only [getElem?_set_of_some _ j h] at hj
    split_ifs at hj with hji
    · cases hj
      subst hji
      exact hinv.doneWin j c h hall
    · exact hinv.doneWin j cj hj hall
  · intro j cj pj hj hpj
    simp only [getElem?_set_of_some _ j h] at hj
    split_ifs at hj with hji
    · cases hj
      simp at hpj
    · obtain ⟨h1, h2, h3⟩ := hinv.pendOk j cj pj hj hpj
      exact ⟨published_set _ h (fun hc => hc) h1, by simp only; rw [hframe pj.prev]; exact h2,
        h3⟩

theorem inv_cas_win {l : LeakybuckerLimiter} {m : Nat} {s : Shared} {i : Nat} {c : Caller}
    {p : Pending} (hinv : Shared.Inv l m s) (h : s.callers[i]? = some c)
    (hp : c.pending = some p) (heq : s.ptr = p.prev) (seen : List Attempt) :
    Shared.Inv l m
      { ptr := i + 1
        callers := s.callers.set i { c with allowed := true, pending := none, seen := seen }
        wins := s.wins ++ [{ caller := i, prev := p.prev, now := p.now }] } := by
  have ha : c.allowed = false := hinv.pend i c h (by simp [hp])
  have hframe : ∀ q, deref l
      (s.callers.set i { c with allowed := true, pending := none, seen := seen }) q =
        deref l s.callers q :=
    fun q => deref_set l _ h (Or.inr rfl)
  have hself : (s.callers.set i { c with allowed := true, pending := none, seen := seen })[i]? =
      some { c with allowed := true, pending := none, seen := seen } := by
    rw [getElem?_set_of_some _ i h, if_pos rfl]
  have hnew : i ∉ s.wins.map Win.caller := by
    intro hi
    obtain ⟨w, hw, hwi⟩ := List.mem_map.1 hi
    obtain ⟨cw, hcw, hall⟩ := hinv.winDone w hw
    rw [hwi, h] at hcw
    cases hcw
    rw [ha] at hall
    cases hall
  obtain ⟨hpi, hpo, hpn⟩ := hinv.pendOk i c p h hp
  refine
    { len := by simpa using hinv.len
      pend := ?_, winDone := ?_, doneWin := ?_, nodupCaller := ?_, nodupPrev := ?_
      pub := ?_, pendOk := ?_, lin := ?_ }
  · intro j cj hj hpj
    simp only [getElem?_set_of_some _ j h] at hj
    split_ifs at hj with hji
    · cases hj
      simp at hpj
    · exact hinv.pend j cj hj hpj
  · intro w hw
    simp only [List.mem_append, List.mem_singleton] at hw
    rcases hw with hw | hw
    · obtain ⟨cw, hcw, hall⟩ := hinv.winDone w hw
      by_cases hwi : w.caller = i
      · exact ⟨_, by rw [hwi]; exact hself, rfl⟩
      · exact ⟨cw, by simp only [getElem?_set_of_some _ w.caller h, if_neg hwi]; exact hcw,
          hall⟩
    · subst hw
      exact ⟨_, hself, rfl⟩
  · intro j cj hj hall
    simp only [getElem?_set_of_some _ j h] at hj
    simp only [List.map_append, List.map_cons, List.map_nil, List.mem_append,
      List.mem_singleton]
    split_ifs at hj with hji
    · exact Or.inr hji
    · exact Or.inl (hinv.doneWin j cj hj hall)
  · simp only [List.map_append, List.map_cons, List.map_nil]
    rw [List.nodup_append_comm]
    exact List.nodup_cons.2 ⟨hnew, hinv.nodupCaller⟩
  · simp only [List.map_append, List.map_cons, List.map_nil]
    have hnd : (List.map Win.prev s.wins ++ [p.prev]).Nodup := by
      rw [List.nodup_append_comm]
      have := hinv.nodupPrev
      rw [heq] at this
      exact this
    refine List.nodup_cons.2 ⟨?_, hnd⟩
    intro hmem
    have hq : Published s.callers (i + 1) := by
      apply hinv.pub
      simp only [List.mem_append, List.mem_singleton] at hmem
      rcases hmem with hmem | hmem
      · exact List.mem_cons_of_mem _ hmem
      · rw [hmem, ← heq]
        exact List.mem_cons_self _ _
    exact published_ne h ha hq rfl
  · intro q hq
    simp only [List.map_append, List.map_cons, List.map_nil, List.mem_cons, List.mem_append,
      List.mem_singleton, List.not_mem_nil, or_false] at hq
    rcases hq with hq | hq | hq
    · subst hq
      exact Or.inr ⟨i, _, rfl, hself, rfl⟩
    · exact published_set _ h (fun _ => rfl) (hinv.pub q (List.mem_cons_of_mem _ hq))
    · refine published_set _ h (fun _ => rfl) (hinv.pub q ?_)
      rw [hq, ← heq]
      exact List.mem_cons_self _ _
  · intro j cj pj hj hpj
    simp only [getElem?_set_of_some _ j h] at hj
    split_ifs at hj with hji
    · cases hj
      simp at hpj
    · obtain ⟨h1, h2, h3⟩ := hinv.pendOk j cj pj hj hpj
      exact ⟨published_set _ h (fun _ => rfl) h1, by simp only; rw [hframe pj.prev]; exact h2,
        h3⟩
  · have hd : deref l
        (s.callers.set i { c with allowed := true, pending := none, seen := seen }) (i + 1) =
          c.loc.newState := by
      simp only [deref]
      rw [hself]
    simp only [List.map_append, List.map_cons, List.map_nil]
    rw [hd, hpn, hpo, ← heq, hinv.lin]
    simp [reach, List.foldl_append]

theorem inv_init (l : LeakybuckerLimiter) (m : Nat) : Shared.Inv l m (Shared.init m) := by
  have hget : ∀ (i : Nat) (c : Caller),
      (List.replicate m Caller.start)[i]? = some c → c = Caller.start := by
    intro i c hc
    obtain ⟨hi, hc1⟩ := List.getElem?_eq_some.1 hc
    rw [← hc1]
    simp
  refine
    { len := by simp [Shared.init]
      pend := ?_, winDone := ?_, doneWin := ?_, nodupCaller := ?_, nodupPrev := ?_
      pub := ?_, pendOk := ?_, lin := ?_ }
  · intro i c hc hp
    rw [hget i c hc]
    rfl
  · intro w hw
    simp [Shared.init] at hw
  · intro i c hc hall
    rw [hget i c hc] at hall
    cases hall
  · simp [Shared.init]
  · simp [Shared.init]
  · intro q hq
    simp [Shared.init] at hq
    exact Or.inl hq
  · intro i c p hc hp
    rw [hget i c hc] at hp
    cases hp
  · rfl

theorem inv_step {l : LeakybuckerLimiter} {m : Nat} {s s1 : Shared} (a : Step)
    (hinv : Shared.Inv l m s) (hstep : s.step l a = some s1) : Shared.Inv l m s1 := by
  cases a with
  | load i now =>
    simp only [Shared.step] at hstep
    split at hstep
    · cases hstep
    · rename_i c hc
      split_ifs at hstep with hg
      simp only [Option.some.injEq] at hstep
      subst hstep
      have ha : c.allowed = false := by
        cases hca : c.allowed
        · rfl
        · exact absurd (Or.inl hca) hg
      exact inv_load hinv hc ha now
  | cas i =>
    simp only [Shared.step] at hstep
    split at hstep
    · cases hstep
    · rename_i c hc
      split at hstep
      · cases hstep
      · rename_i p hp
        split_ifs at hstep with hg
        · simp only [Option.some.injEq] at hstep
          subst hstep
          exact inv_cas_win hinv hc hp hg _
        · simp only [Option.some.injEq] at hstep
          subst hstep
          exact inv_cas_lose hinv hc _

theorem inv_run {l : LeakybuckerLimiter} {m : Nat} :
    ∀ (steps : List Step) (s s1 : Shared), Shared.Inv l m s →
      Shared.run l s steps = some s1 → Shared.Inv l m s1 := by
  intro steps
  induction steps with
  | nil =>
    intro s s1 hinv hrun
    simp only [Shared.run, Option.some.injEq] at hrun
    subst hrun
    exact hinv
  | cons a rest ih =>
    intro s s1 hinv hrun
    simp only [Shared.run] at hrun
    split at hrun
    · cases hrun
    · rename_i s2 hs2
      exact ih s2 s1 (inv_step a hinv hs2) hrun

/-! ## Concurrent callers: every caller runs `Wait` -/

theorem replay_append (l : LeakybuckerLimiter) (seen : List Attempt) (a : Attempt) :
    replay l (seen ++ [a]) = loopBody l (replay l seen) a.now a.old := by
  simp [replay, List.foldl_append]

theorem waitLoop_eq_replay (l : LeakybuckerLimiter) (win : Attempt)
    (hw : win.swapped = true) :
    ∀ (failed : List Attempt) (loc : Locals), (∀ a ∈ failed, a.swapped = false) →
      waitLoop l loc (failed ++ [win]) =
        some (loopBody l (failed.foldl (fun loc a => loopBody l loc a.now a.old) loc)
          win.now win.old) := by
  intro failed
  induction failed with
  | nil =>
    intro loc _
    simp [waitLoop, hw]
  | cons a rest ih =>
    intro loc hf
    have ha : a.swapped = false := hf a (List.mem_cons_self a rest)
    have h1 := ih (loopBody l loc a.now a.old) (fun b hb => hf b (List.mem_cons_of_mem a hb))
    simp only [List.cons_append, waitLoop, ha, Bool.false_eq_true, if_false, List.foldl_cons]
    exact h1

theorem local_step {l : LeakybuckerLimiter} {s s1 : Shared} (a : Step)
    (hloc : ∀ (i : Nat) (c : Caller), s.callers[i]? = some c → Caller.Local l c)
    (hstep : s.step l a = some s1) :
    ∀ (i : Nat) (c : Caller), s1.callers[i]? = some c → Caller.Local l c := by
  cases a with
  | load i now =>
    simp only [Shared.step] at hstep
    split at hstep
    · cases hstep
    · rename_i c hc
      split_ifs at hstep with hg
      simp only [Option.some.injEq] at hstep
      subst hstep
      have ha : c.allowed = false := by
        cases hca : c.allowed
        · rfl
        · exact absurd (Or.inl hca) hg
      have hp : c.pending = none := by
        cases hcp : c.pending
        · rfl
        · exact absurd (Or.inr (by simp [hcp])) hg
      have hold := hloc i c hc
      intro j cj hj
      simp only [getElem?_set_of_some _ j hc] at hj
      split_ifs at hj with hji
      · cases hj
        refine { failed := fun _ => hold.failed ha, done := ?_, locals := ?_ }
        · intro h1
          simp only at h1
          rw [ha] at h1
          cases h1
        · have := hold.locals
          rw [hp] at this
          simp only at this
          simp only
          rw [← this]
      · exact hloc j cj hj
  | cas i =>
    simp only [Shared.step] at hstep
    split at hstep
    · cases hstep
    · rename_i c hc
      split at hstep
      · cases hstep
      · rename_i p hp
        have hold := hloc i c hc
        have ha : c.allowed = false := by
          cases hca : c.allowed
          · rfl
          · have := (hold.done hca).1
            rw [hp] at this
            cases this
        have hl := hold.locals
        rw [hp] at hl
        simp only at hl
        split_ifs at hstep with hg
        · simp only [Option.some.injEq] at hstep
          subst hstep
          intro j cj hj
          simp only [getElem?_set_of_some _ j hc] at hj
          split_ifs at hj with hji
          · cases hj
            refine { failed := ?_, done := ?_, locals := ?_ }
            · intro h1
              cases h1
            · intro _
              exact ⟨rfl, c.seen, _, rfl, rfl, hold.failed ha⟩
            · simp only
              rw [replay_append, hl]
          · exact hloc j cj hj
        · simp only [Option.some.injEq] at hstep
          subst hstep
          intro j cj hj
          simp only [getElem?_set_of_some _ j hc] at hj
          split_ifs at hj with hji
          · cases hj
            refine { failed := ?_, done := ?_, locals := ?_ }
            · intro _ b hb
              simp only [List.mem_append, List.mem_singleton] at hb
              rcases hb with hb | hb
              · exact hold.failed ha b hb
              · rw [hb]
            · intro h1
              simp only at h1
              rw [ha] at h1
              cases h1
            · simp only
              rw [replay_append, hl]
          · exact hloc j cj hj

theorem local_run {l : LeakybuckerLimiter} :
    ∀ (steps : List Step) (s s1 : Shared),
      (∀ (i : Nat) (c : Caller), s.callers[i]? = some c → Caller.Local l c) →
      Shared.run l s steps = some s1 →
      ∀ (i : Nat) (c : Caller), s1.callers[i]? = some c → Caller.Local l c := by
  intro steps
  induction steps with
  | nil =>
    intro s s1 hloc hrun
    simp only [Shared.run, Option.some.injEq] at hrun
    subst hrun
    exact hloc
  | cons a rest ih =>
    intro s s1 hloc hrun
    simp only [Shared.run] at hrun
    split at hrun
    · cases hrun
    · rename_i s2 hs2
      exact ih s2 s1 (local_step a hloc hs2) hrun

theorem local_init (l : LeakybuckerLimiter) (m : Nat) :
    ∀ (i : Nat) (c : Caller), (Shared.init m).callers[i]? = some c → Caller.Local l c := by
  intro i c hc
  obtain ⟨hi, hc1⟩ := List.getElem?_eq_some.1 hc
  have : c = Caller.start := by
    rw [← hc1]
    simp [Shared.init]
  subst this
  refine { failed := ?_, done := ?_, locals := rfl }
  · intro _ a ha
    simp [Caller.start] at ha
  · intro h
    cases h

/-- Every caller that has left the loop, in any state the callers can reach, sleeps and
returns what `Wait` computes on the attempts that caller went through. -/
theorem caller_result_eq_wait (l : LeakybuckerLimiter) (m : Nat) (steps : List Step)
    (s : Shared) (hrun : Shared.run l (Shared.init m) steps = some s)
    (c : Caller) (hc : c ∈ s.callers) (hall : c.allowed = true) :
    Wait l c.seen = Caller.result c := by
  obtain ⟨i, hi, hget⟩ := List.getElem_of_mem hc
  have hsome : s.callers[i]? = some c := by
    rw [List.getElem?_eq_getElem hi, hget]
  have hloc := local_run steps _ s (local_init l m) hrun i c hsome
  obtain ⟨hp, failed, win, hseen, hwin, hfail⟩ := hloc.done hall
  have hl := hloc.locals
  rw [hp] at hl
  simp only at hl
  unfold Wait Caller.result
  rw [if_pos hall, hseen, waitLoop_eq_replay l win hwin failed Locals.zero hfail, hl, hseen,
    replay_append]
  rfl

/-! ## Concurrent callers: the interval is not stale when the clock is never before zero -/

theorem clocked_load {l : LeakybuckerLimiter} {m : Nat} {s : Shared} {i : Nat} {c : Caller}
    (hs : 0 < l.slack) (hinv : Shared.Inv l m s) (hck : Shared.Clocked l s)
    (h : s.callers[i]? = some c) (ha : c.allowed = false)
    (now : Int) (hnow : 0 ≤ now) :
    Shared.Clocked l
      { s with
        callers := s.callers.set i
          { c with
            loc := loopBody l c.loc now (deref l s.callers s.ptr)
            pending := some { prev := s.ptr, now := now, old := deref l s.callers s.ptr } } } := by
  have hptr : Published s.callers s.ptr := hinv.pub s.ptr (List.mem_cons_self _ _)
  have hframe : ∀ c1 : Caller, deref l (s.callers.set i c1) s.ptr = deref l s.callers s.ptr :=
    fun c1 => deref_set l c1 h (Or.inl (published_ne h ha hptr))
  have hzero : (deref l s.callers s.ptr).lastTick = 0 → c.loc.interval = 0 := by
    intro hz
    by_contra hne
    exact hck.stale i c h hne hz
  refine { pendNow := ?_, stale := ?_, pendRes := ?_, doneRes := ?_ }
  · intro j cj pj hj hpj
    simp only [getElem?_set_of_some _ j h] at hj
    split_ifs at hj with hji
    · cases hj
      simp only [Option.some.injEq] at hpj
      subst hpj
      exact hnow
    · exact hck.pendNow j cj pj hj hpj
  · intro j cj hj hne
    simp only
    rw [hframe]
    simp only [getElem?_set_of_some _ j h] at hj
    split_ifs at hj with hji
    · cases hj
      simp only at hne
      intro hz
      rw [loopBody_first l _ now _ hz] at hne
      exact hne (hzero hz)
    · exact hck.stale j cj hj hne
  · intro j cj pj hj hpj
    simp only [getElem?_set_of_some _ j h] at hj
    split_ifs at hj with hji
    · cases hj
      simp only [Option.some.injEq] at hpj
      subst hpj
      simp only [winInterval]
      by_cases hz : (deref l s.callers s.ptr).lastTick = 0
      · rw [loopBody_first l _ now _ hz, if_pos hz]
        simp [hzero hz]
      · rw [loopBody_next l _ now _ hz hs, if_neg hz]
        simp
    · exact hck.pendRes j cj pj hj hpj
  · intro j cj hj hall
    simp only [getElem?_set_of_some _ j h] at hj
    split_ifs at hj with hji
    · cases hj
      simp only at hall
      rw [ha] at hall
      cases hall
    · exact hck.doneRes j cj hj hall

theorem clocked_cas_lose {l : LeakybuckerLimiter} {s : Shared} {i : Nat} {c : Caller}
    (hck : Shared.Clocked l s) (h : s.callers[i]? = some c)
    (ha : c.allowed = false) (seen : List Attempt) :
    Shared.Clocked l
      { s with callers := s.callers.set i { c with pending := none, seen := seen } } := by
  have hframe : ∀ q, deref l
      (s.callers.set i { c with pending := none, seen := seen }) q = deref l s.callers q :=
    fun q => deref_set l _ h (Or.inr rfl)
  refine { pendNow := ?_, stale := ?_, pendRes := ?_, doneRes := ?_ }
  · intro j cj pj hj hpj
    simp only [getElem?_set_of_some _ j h] at hj
    split_ifs at hj with hji
    · cases hj
      simp at hpj
    · exact hck.pendNow j cj pj hj hpj
  · intro j cj hj hne
    simp only
    rw [hframe]
    simp only [getElem?_set_of_some _ j h] at hj
    split_ifs at hj with hji
    · cases hj
      exact hck.stale i c h hne
    · exact hck.stale j cj hj hne
  · intro j cj pj hj hpj
    simp only [getElem?_set_of_some _ j h] at hj
    split_ifs at hj with hji
    · cases hj
      simp at hpj
    · exact hck.pendRes j cj pj hj hpj
  · intro j cj hj hall
    simp only [getElem?_set_of_some _ j h] at hj
    split_ifs at hj with hji
    · cases hj
      simp only at hall
      rw [ha] at hall
      cases hall
    · exact hck.doneRes j cj hj hall

theorem clocked_cas_win {l : LeakybuckerLimiter} {m : Nat} {s : Shared} {i : Nat} {c : Caller}
    {p : Pending} (hs : 0 < l.slack) (hinv : Shared.Inv l m s) (hck : Shared.Clocked l s)
    (h : s.callers[i]? = some c) (hp : c.pending = some p) (heq : s.ptr = p.prev)
    (seen : List Attempt) :
    Shared.Clocked l
      { ptr := i + 1
        callers := s.callers.set i
          { c with
            allowed := true
            pending := none
            seen := seen ++ [{ now := p.now, old := p.old, swapped := true }] }
        wins := s.wins ++ [{ caller := i, prev := p.prev, now := p.now }] } := by
  have hself : (s.callers.set i
      { c with
        allowed := true
        pending := none
        seen := seen ++ [{ now := p.now, old := p.old, swapped := true }] })[i]? =
      some { c with
             allowed := true
             pending := none
             seen := seen ++ [{ now := p.now, old := p.old, swapped := true }] } := by
    rw [getElem?_set_of_some _ i h, if_pos rfl]
  obtain ⟨-, hpo, hpn⟩ := hinv.pendOk i c p h hp
  have hpnow := hck.pendNow i c p h hp
  have hres := hck.pendRes i c p h hp
  refine { pendNow := ?_, stale := ?_, pendRes := ?_, doneRes := ?_ }
  · intro j cj pj hj hpj
    simp only [getElem?_set_of_some _ j h] at hj
    split_ifs at hj with hji
    · cases hj
      simp at hpj
    · exact hck.pendNow j cj pj hj hpj
  · intro j cj hj hne
    have hold : (deref l s.callers s.ptr).lastTick ≠ 0 := by
      simp only [getElem?_set_of_some _ j h] at hj
      split_ifs at hj with hji
      · cases hj
        exact hck.stale i c h hne
      · exact hck.stale j cj hj hne
    have hd : deref l (s.callers.set i
        { c with
          allowed := true
          pending := none
          seen := seen ++ [{ now := p.now, old := p.old, swapped := true }] }) (i + 1) =
          c.loc.newState := by
      simp only [deref]
      rw [hself]
    simp only
    rw [hd, hpn, hpo, ← heq, update_next l _ _ hold hs]
    have := slack_le_clamped l (deref l s.callers s.ptr) p.now
    simp only
    omega
  · intro j cj pj hj hpj
    simp only [getElem?_set_of_some _ j h] at hj
    split_ifs at hj with hji
    · cases hj
      simp at hpj
    · exact hck.pendRes j cj pj hj hpj
  · intro j cj hj hall
    simp only [getElem?_set_of_some _ j h] at hj
    split_ifs at hj with hji
    · cases hj
      exact ⟨seen, _, rfl, rfl, hres.1, hres.2⟩
    · exact hck.doneRes j cj hj hall

theorem clocked_init (l : LeakybuckerLimiter) (m : Nat) : Shared.Clocked l (Shared.init m) := by
  have hget : ∀ (i : Nat) (c : Caller),
      (Shared.init m).callers[i]? = some c → c = Caller.start := by
    intro i c hc
    obtain ⟨hi, hc1⟩ := List.getElem?_eq_some.1 hc
    rw [← hc1]
    simp [Shared.init]
  refine { pendNow := ?_, stale := ?_, pendRes := ?_, doneRes := ?_ }
  · intro i c p hc hp
    rw [hget i c hc] at hp
    cases hp
  · intro i c hc hne
    rw [hget i c hc] at hne
    exact absurd rfl hne
  · intro i c p hc hp
    rw [hget i c hc] at hp
    cases hp
  · intro i c hc hall
    rw [hget i c hc] at hall
    cases hall

theorem clocked_step {l : LeakybuckerLimiter} {m : Nat} {s s1 : Shared} (a : Step)
    (hs : 0 < l.slack) (hinv : Shared.Inv l m s) (hck : Shared.Clocked l s)
    (hnow : ∀ i now, a = Step.load i now → 0 ≤ now)
    (hstep : s.step l a = some s1) : Shared.Clocked l s1 := by
  cases a with
  | load i now =>
    simp only [Shared.step] at hstep
    split at hstep
    · cases hstep
    · rename_i c hc
      split_ifs at hstep with hg
      simp only [Option.some.injEq] at hstep
      subst hstep
      have ha : c.allowed = false := by
        cases hca : c.allowed
        · rfl
        · exact absurd (Or.inl hca) hg
      exact clocked_load hs hinv hck hc ha now (hnow i now rfl)
  | cas i =>
    simp only [Shared.step] at hstep
    split at hstep
    · cases hstep
    · rename_i c hc
      split at hstep
      · cases hstep
      · rename_i p hp
        have ha : c.allowed = false := hinv.pend i c hc (by simp [hp])
        split_ifs at hstep with hg
        · simp only [Option.some.injEq] at hstep
          subst hstep
          exact clocked_cas_win hs hinv hck hc hp hg _
        · simp only [Option.some.injEq] at hstep
          subst hstep
          exact clocked_cas_lose hck hc ha _

theorem clocked_run {l : LeakybuckerLimiter} {m : Nat} (hs : 0 < l.slack) :
    ∀ (steps : List Step) (s s1 : Shared), Shared.Inv l m s → Shared.Clocked l s →
      (∀ i now, Step.load i now ∈ steps → 0 ≤ now) →
      Shared.run l s steps = some s1 → Shared.Clocked l s1 := by
  intro steps
  induction steps with
  | nil =>
    intro s s1 _ hck _ hrun
    simp only [Shared.run, Option.some.injEq] at hrun
    subst hrun
    exact hck
  | cons a rest ih =>
    intro s s1 hinv hck hnow hrun
    simp only [Shared.run] at hrun
    split at hrun
    · cases hrun
    · rename_i s2 hs2
      refine ih s2 s1 (inv_step a hinv hs2)
        (clocked_step a hs hinv hck (fun i now e => hnow i now (by rw [e]; simp)) hs2)
        (fun i now hmem => hnow i now (List.mem_cons_of_mem a hmem)) hrun

/-! ## Concurrent callers: every schedule ends -/

theorem sum_map_set (f : Caller → Nat) :
    ∀ (cs : List Caller) (i : Nat) (c c1 : Caller), cs[i]? = some c →
      ((cs.set i c1).map f).sum + f c = (cs.map f).sum + f c1 := by
  intro cs
  induction cs with
  | nil => intro i c c1 h; simp at h
  | cons x xs ih =>
    intro i c c1 h
    cases i with
    | zero =>
      simp only [List.getElem?_cons_zero, Option.some.injEq] at h
      subst h
      simp only [List.set_cons_zero, List.map_cons, List.sum_cons]
      omega
    | succ k =>
      simp only [List.getElem?_cons_succ] at h
      have := ih k c c1 h
      simp only [List.set_cons_succ, List.map_cons, List.sum_cons]
      omega

theorem sum_map_le (f g : Caller → Nat) (hfg : ∀ c, g c ≤ f c + 2) :
    ∀ cs : List Caller, (cs.map g).sum ≤ (cs.map f).sum + 2 * cs.length := by
  intro cs
  induction cs with
  | nil => simp
  | cons x xs ih =>
    have := hfg x
    simp only [List.map_cons, List.sum_cons, List.length_cons]
    omega

theorem sum_map_set_le (f g : Caller → Nat) (hfg : ∀ c, g c ≤ f c + 2) :
    ∀ (cs : List Caller) (i : Nat) (c c1 : Caller), cs[i]? = some c →
      ((cs.set i c1).map g).sum + f c + 2 ≤ (cs.map f).sum + g c1 + 2 * cs.length := by
  intro cs
  induction cs with
  | nil => intro i c c1 h; simp at h
  | cons x xs ih =>
    intro i c c1 h
    cases i with
    | zero =>
      simp only [List.getElem?_cons_zero, Option.some.injEq] at h
      subst h
      have := sum_map_le f g hfg xs
      simp only [List.set_cons_zero, List.map_cons, List.sum_cons, List.length_cons]
      omega
    | succ k =>
      simp only [List.getElem?_cons_succ] at h
      have := ih k c c1 h
      have := hfg x
      simp only [List.set_cons_succ, List.map_cons, List.sum_cons, List.length_cons]
      omega

theorem fuel_le_of_ptr (m p q : Nat) (c : Caller) :
    Caller.fuel m q c ≤ Caller.fuel m p c + 2 := by
  unfold Caller.fuel
  split_ifs
  · omega
  · cases c.pending with
    | none => simp
    | some x =>
      simp only
      split_ifs <;> omega

theorem fuel_step {l : LeakybuckerLimiter} {m : Nat} {s s1 : Shared} (a : Step)
    (hinv : Shared.Inv l m s) (hstep : s.step l a = some s1) : s1.fuel + 1 ≤ s.fuel := by
  cases a with
  | load i now =>
    simp only [Shared.step] at hstep
    split at hstep
    · cases hstep
    · rename_i c hc
      split_ifs at hstep with hg
      simp only [Option.some.injEq] at hstep
      subst hstep
      have ha : c.allowed = false := by
        cases hca : c.allowed
        · rfl
        · exact absurd (Or.inl hca) hg
      have hp : c.pending = none := by
        cases hcp : c.pending
        · rfl
        · exact absurd (Or.inr (by simp [hcp])) hg
      have h := sum_map_set (Caller.fuel s.callers.length s.ptr) s.callers i c
        { c with
          loc := loopBody l c.loc now (deref l s.callers s.ptr)
          pending := some { prev := s.ptr, now := now, old := deref l s.callers s.ptr } } hc
      have hw : Caller.fuel s.callers.length s.ptr c = 2 * s.callers.length + 2 := by
        simp [Caller.fuel, ha, hp]
      have hw1 : Caller.fuel s.callers.length s.ptr
          { c with
            loc := loopBody l c.loc now (deref l s.callers s.ptr)
            pending := some { prev := s.ptr, now := now, old := deref l s.callers s.ptr } } =
          2 * s.callers.length + 1 := by
        simp [Caller.fuel, ha]
      rw [hw, hw1] at h
      simp only [Shared.fuel, List.length_set]
      omega
  | cas i =>
    simp only [Shared.step] at hstep
    split at hstep
    · cases hstep
    · rename_i c hc
      split at hstep
      · cases hstep
      · rename_i p hp
        have ha : c.allowed = false := hinv.pend i c hc (by simp [hp])
        split_ifs at hstep with hg
        · simp only [Option.some.injEq] at hstep
          subst hstep
          have h := sum_map_set_le (Caller.fuel s.callers.length s.ptr)
            (Caller.fuel s.callers.length (i + 1)) (fuel_le_of_ptr _ _ _) s.callers i c
            { c with
              allowed := true
              pending := none
              seen := c.seen ++ [{ now := p.now, old := p.old, swapped := true }] } hc
          have hw : Caller.fuel s.callers.length s.ptr c = 2 * s.callers.length + 1 := by
            simp [Caller.fuel, ha, hp, hg]
          have hw1 : Caller.fuel s.callers.length (i + 1)
              { c with
                allowed := true
                pending := none
                seen := c.seen ++ [{ now := p.now, old := p.old, swapped := true }] } = 0 := by
            simp [Caller.fuel]
          rw [hw, hw1] at h
          simp only [Shared.fuel, List.length_set]
          omega
        · simp only [Option.some.injEq] at hstep
          subst hstep
          have h := sum_map_set (Caller.fuel s.callers.length s.ptr) s.callers i c
            { c with
              pending := none
              seen := c.seen ++ [{ now := p.now, old := p.old, swapped := false }] } hc
          have hg1 : ¬ p.prev = s.ptr := fun e => hg e.symm
          have hw : Caller.fuel s.callers.length s.ptr c = 2 * s.callers.length + 3 := by
            simp [Caller.fuel, ha, hp, hg1]
          have hw1 : Caller.fuel s.callers.length s.ptr
              { c with
                pending := none
                seen := c.seen ++ [{ now := p.now, old := p.old, swapped := false }] } =
              2 * s.callers.length + 2 := by
            simp [Caller.fuel, ha]
          rw [hw, hw1] at h
          simp only [Shared.fuel, List.length_set]
          omega

theorem fuel_run {l : LeakybuckerLimiter} {m : Nat} :
    ∀ (steps : List Step) (s s1 : Shared), Shared.Inv l m s →
      Shared.run l s steps = some s1 → steps.length + s1.fuel ≤ s.fuel := by
  intro steps
  induction steps with
  | nil =>
    intro s s1 _ hrun
    simp only [Shared.run, Option.some.injEq] at hrun
    subst hrun
    simp
  | cons a rest ih =>
    intro s s1 hinv hrun
    simp only [Shared.run] at hrun
    split at hrun
    · cases hrun
    · rename_i s2 hs2
      have h1 := fuel_step a hinv hs2
      have h2 := ih s2 s1 (inv_step a hinv hs2) hrun
      simp only [List.length_cons]
      omega

theorem fuel_init (m : Nat) : (Shared.init m).fuel = m * (2 * m + 2) := by
  simp [Shared.fuel, Shared.init, Caller.fuel, Caller.start]

theorem step_enabled (l : LeakybuckerLimiter) (s : Shared) (c : Caller) (hc : c ∈ s.callers)
    (ha : c.allowed = false) : ∃ a s1, s.step l a = some s1 := by
  obtain ⟨i, hi, hget⟩ := List.getElem_of_mem hc
  have hsome : s.callers[i]? = some c := by
    rw [List.getElem?_eq_getElem hi, hget]
  cases hp : c.pending with
  | none =>
    refine ⟨Step.load i 0, ?_⟩
    simp [Shared.step, hsome, ha, hp]
  | some p =>
    refine ⟨Step.cas i, ?_⟩
    by_cases hg : s.ptr = p.prev <;> simp [Shared.step, hsome, hp, hg]

theorem interval_of_new_pos {rate perTime : Int} {l : LeakybuckerLimiter} (hr : 0 < rate)
    (hp : 0 < perTime) (hmax : perTime ≤ maxDuration)
    (hl : NewLeakyBucketLimiter rate perTime = some l) :
    l.timePerActions = Int.tdiv perTime rate ∧ 0 ≤ l.timePerActions ∧
      InInt64 l.timePerActions := by
  have hq : Int.tdiv perTime rate = perTime / rate :=
    Int.tdiv_eq_ediv (le_of_lt hp) (le_of_lt hr)
  have h0 : 0 ≤ perTime / rate := Int.ediv_nonneg (le_of_lt hp) (le_of_lt hr)
  have hle : perTime / rate ≤ perTime := Int.ediv_le_self _ (le_of_lt hp)
  have hin : InInt64 (perTime / rate) := by
    unfold InInt64 minDuration maxDuration
    unfold maxDuration at hmax
    constructor <;> omega
  rw [interval_of_new hl, hq, wrap64_eq_self hin]
  exact ⟨rfl, h0, hin⟩

/-! ## Construction -/

/-- C8: for every rate > 0 and every positive period (a duration, so at most `maxDuration`),
`NewLeakyBucketLimiter` returns a limiter whose `timePerActions` is the truncated quotient
`perTime / rate`, bracketed by `interval * rate ≤ perTime < (interval + 1) * rate`, whose
slack is 10 ns and whose initial record is the zero instant with `sleepfor = 0`. -/
theorem new_limiter_construction (rate perTime : Int) (hr : 0 < rate) (hp : 0 < perTime)
    (hmax : perTime ≤ maxDuration) :
    ∃ l, NewLeakyBucketLimiter rate perTime = some l ∧
      l.timePerActions = Int.tdiv perTime rate ∧
      l.timePerActions * rate ≤ perTime ∧ perTime < (l.timePerActions + 1) * rate ∧
      l.slack = 10 ∧ l.state = { lastTick := 0, sleepfor := 0 } := by
  have hq : Int.tdiv perTime rate = perTime / rate :=
    Int.tdiv_eq_ediv (le_of_lt hp) (le_of_lt hr)
  have h0 : 0 ≤ perTime / rate := Int.ediv_nonneg (le_of_lt hp) (le_of_lt hr)
  have hle : perTime / rate ≤ perTime := Int.ediv_le_self _ (le_of_lt hp)
  have hin : InInt64 (perTime / rate) := by
    unfold InInt64 minDuration maxDuration
    unfold maxDuration at hmax
    constructor <;> omega
  have hlo : perTime / rate * rate ≤ perTime := Int.ediv_mul_le _ (ne_of_gt hr)
  have hhi : perTime < (perTime / rate + 1) * rate := Int.lt_ediv_add_one_mul_self _ hr
  refine ⟨{ state := { lastTick := 0, sleepfor := 0 }
            timePerActions := wrap64 (Int.tdiv perTime rate)
            slack := 10 }, ?_, ?_, ?_, ?_, rfl, rfl⟩
  · rw [NewLeakyBucketLimiter_eq, if_neg (ne_of_gt hr)]
  · simp only [hq, wrap64_eq_self hin]
  · simp only [hq, wrap64_eq_self hin]; exact hlo
  · simp only [hq, wrap64_eq_self hin]; exact hhi

/-- Witness of C8: one operation per second. -/
theorem new_limiter_construction_witness :
    ∃ l, NewLeakyBucketLimiter 1 1000000000 = some l ∧
      l.timePerActions = Int.tdiv 1000000000 1 ∧
      l.timePerActions * 1 ≤ 1000000000 ∧ 1000000000 < (l.timePerActions + 1) * 1 ∧
      l.slack = 10 ∧ l.state = { lastTick := 0, sleepfor := 0 } :=
  new_limiter_construction 1 1000000000 (by decide) (by decide) (by decide)

/-- Counterexample of C7: a negative period, and a negative rate, are accepted; the limiter
returned has a negative interval. -/
theorem new_limiter_accepts_negative :
    NewLeakyBucketLimiter 1 (-1000000000) =
        some { state := { lastTick := 0, sleepfor := 0 }
               timePerActions := -1000000000, slack := 10 } ∧
      NewLeakyBucketLimiter (-1) 1000000000 =
        some { state := { lastTick := 0, sleepfor := 0 }
               timePerActions := -1000000000, slack := 10 } := by
  decide

theorem tdiv_inInt64 (p r : Int) (hp : InInt64 p) (hne : ¬ (p = minDuration ∧ r = -1)) :
    InInt64 (Int.tdiv p r) := by
  unfold InInt64 minDuration maxDuration at hp
  unfold minDuration at hne
  have hab : (Int.tdiv p r).natAbs = p.natAbs / r.natAbs := Int.natAbs_tdiv p r
  have hle : p.natAbs / r.natAbs ≤ p.natAbs := Nat.div_le_self _ _
  unfold InInt64 minDuration maxDuration
  refine ⟨by omega, ?_⟩
  by_contra hgt
  have hq : Int.tdiv p r = 9223372036854775808 := by omega
  have hpabs : p.natAbs = 9223372036854775808 := by omega
  have hpv : p = -9223372036854775808 := by omega
  have hr1 : ¬ 1 < r.natAbs := by
    intro h1
    have := Nat.div_lt_self (by omega : 0 < p.natAbs) h1
    omega
  have hr0 : r.natAbs ≠ 0 := by
    intro h0
    rw [h0, Nat.div_zero] at hab
    omega
  have hrv : r = 1 ∨ r = -1 := by omega
  rcases hrv with h | h
  · rw [h, Int.tdiv_one] at hq
    omega
  · exact hne ⟨hpv, h⟩

theorem tdiv_sign_cases (p r : Int) :
    (0 ≤ p → 0 < r → 0 ≤ Int.tdiv p r) ∧ (p ≤ 0 → r < 0 → 0 ≤ Int.tdiv p r) ∧
      (p ≤ 0 → 0 < r → Int.tdiv p r ≤ 0) ∧ (0 ≤ p → r < 0 → Int.tdiv p r ≤ 0) := by
  have hneg : Int.tdiv p r = -(Int.tdiv (-p) r) := by
    rw [Int.neg_tdiv, neg_neg]
  refine ⟨fun hp hr => Int.tdiv_nonneg hp (le_of_lt hr), ?_, ?_,
    fun hp hr => Int.tdiv_nonpos hp (le_of_lt hr)⟩
  · intro hp hr
    have := Int.tdiv_nonpos (by omega : 0 ≤ -p) (le_of_lt hr)
    omega
  · intro hp hr
    have := Int.tdiv_nonneg (by omega : 0 ≤ -p) (le_of_lt hr)
    omega

/-- C7, amended: for 64-bit arguments, construction fails exactly when the rate is zero (the
division panics); every other rate, negative ones included, with every period, negative ones
included, yields a limiter with slack 10 ns, the initial record `(0, 0)` and an interval in
the 64-bit range.  Unless the period is `minDuration` and the rate is -1 (then the quotient
wraps and the interval is `minDuration`), the interval is the quotient truncated toward
zero: its magnitude is `|perTime| / |rate|`, it is not negative when rate and period have
the same sign and not positive when their signs differ. -/
theorem new_limiter_fails_iff_rate_zero (rate perTime : Int) (hp : InInt64 perTime) :
    (NewLeakyBucketLimiter rate perTime = none ↔ rate = 0) ∧
      (rate ≠ 0 →
        ∃ l, NewLeakyBucketLimiter rate perTime = some l ∧ l.slack = 10 ∧
          l.state = { lastTick := 0, sleepfor := 0 } ∧ InInt64 l.timePerActions ∧
          (perTime = minDuration ∧ rate = -1 → l.timePerActions = minDuration) ∧
          (¬ (perTime = minDuration ∧ rate = -1) →
            l.timePerActions.natAbs = perTime.natAbs / rate.natAbs ∧
              (0 ≤ perTime → 0 < rate → 0 ≤ l.timePerActions) ∧
              (perTime ≤ 0 → rate < 0 → 0 ≤ l.timePerActions) ∧
              (perTime ≤ 0 → 0 < rate → l.timePerActions ≤ 0) ∧
              (0 ≤ perTime → rate < 0 → l.timePerActions ≤ 0))) := by
  constructor
  · rw [NewLeakyBucketLimiter_eq]
    split_ifs with h <;> simp [h]
  · intro hr
    refine ⟨{ state := { lastTick := 0, sleepfor := 0 }
              timePerActions := wrap64 (Int.tdiv perTime rate)
              slack := 10 }, ?_, rfl, rfl, wrap64_inInt64 _, ?_, ?_⟩
    · rw [NewLeakyBucketLimiter_eq, if_neg hr]
    · rintro ⟨h1, h2⟩
      subst h1 h2
      decide
    · intro hne
      simp only [wrap64_eq_self (tdiv_inInt64 perTime rate hp hne)]
      exact ⟨Int.natAbs_tdiv perTime rate, tdiv_sign_cases perTime rate⟩

/-- Witness of C7: three operations per -2 ns: the limiter is built and its interval is 0. -/
theorem new_limiter_fails_iff_rate_zero_witness :
    (NewLeakyBucketLimiter 3 (-2) = none ↔ (3 : Int) = 0) ∧
      ∃ l, NewLeakyBucketLimiter 3 (-2) = some l ∧ l.slack = 10 ∧
        l.state = { lastTick := 0, sleepfor := 0 } ∧ InInt64 l.timePerActions ∧
        l.timePerActions.natAbs = (-2 : Int).natAbs / (3 : Int).natAbs ∧
        l.timePerActions ≤ 0 :=
  match new_limiter_fails_iff_rate_zero 3 (-2) (by decide) with
  | ⟨h0, h1⟩ =>
    match h1 (by decide) with
    | ⟨l, hl, hs, hst, hin, _, h2⟩ =>
      ⟨h0, l, hl, hs, hst, hin, (h2 (by decide)).1,
        (h2 (by decide)).2.2.2.1 (by decide) (by decide)⟩

/-! ## The first call -/

/-- C3: on a freshly constructed limiter, a call of `Wait` whose first compare-and-swap
succeeds sleeps for zero, returns the clock reading it observed and publishes the record
`(now, 0)`. -/
theorem first_call_returns_now (rate perTime : Int) (l : LeakybuckerLimiter) (now : Int)
    (hl : NewLeakyBucketLimiter rate perTime = some l) :
    Wait l [{ now := now, old := l.state, swapped := true }] =
      some { slept := 0, returned := now, published := { lastTick := now, sleepfor := 0 } } := by
  have hst := state_of_new hl
  simp [Wait, waitLoop, loopBody_first, hst, Locals.zero]

/-- Witness of C3: one operation per second, first call at instant 100. -/
theorem first_call_returns_now_witness :
    Wait { state := { lastTick := 0, sleepfor := 0 }, timePerActions := 1000000000, slack := 10 }
        [{ now := 100, old := { lastTick := 0, sleepfor := 0 }, swapped := true }] =
      some { slept := 0, returned := 100, published := { lastTick := 100, sleepfor := 0 } } :=
  first_call_returns_now 1 1000000000
    { state := { lastTick := 0, sleepfor := 0 }, timePerActions := 1000000000, slack := 10 }
    100 (by decide)

/-! ## The slack floor -/

theorem loopBody_interval_nonneg (l : LeakybuckerLimiter) (hs : 0 < l.slack) (loc : Locals)
    (now : Int) (old : state) (h : 0 ≤ loc.interval) :
    0 ≤ (loopBody l loc now old).interval := by
  by_cases hz : old.lastTick = 0
  · rw [loopBody_first l loc now old hz]
    exact h
  · rw [loopBody_next l loc now old hz hs]
    have := slack_le_clamped l old now
    simp only
    omega

theorem waitLoop_interval_nonneg (l : LeakybuckerLimiter) (hs : 0 < l.slack) :
    ∀ (attempts : List Attempt) (loc r : Locals), 0 ≤ loc.interval →
      waitLoop l loc attempts = some r → 0 ≤ r.interval := by
  intro attempts
  induction attempts with
  | nil =>
    intro loc r _ h
    simp [waitLoop] at h
  | cons a rest ih =>
    intro loc r hloc h
    have h1 := loopBody_interval_nonneg l hs loc a.now a.old hloc
    simp only [waitLoop] at h
    split_ifs at h with hsw
    · simp only [Option.some.injEq] at h
      rw [← h]
      exact h1
    · exact ih _ r h1 h

/-- Counterexample of C6: at one operation per second with the clock at the zero instant for
the first call, the first winning update publishes `(0, 0)`; the second winning update, by a
caller that arrives five seconds later, replaces a record whose `lastTick` is the zero
instant, takes the first-call branch and sleeps 0, less than the slack of 10 ns. -/
theorem slack_floor_fails_at_zero_instant :
    NewLeakyBucketLimiter 1 1000000000 = some perSecond ∧
      reach perSecond [0] = { lastTick := 0, sleepfor := 0 } ∧
      Wait perSecond [{ now := 5000000000, old := reach perSecond [0], swapped := true }] =
        some { slept := 0, returned := 5000000000
               published := { lastTick := 5000000000, sleepfor := 0 } } ∧
      ¬ (perSecond.slack ≤ 0) := by
  decide

/-- C6, amended: in a limiter built by `NewLeakyBucketLimiter` the slack is 10 ns; a winning
update of `Wait`, for any previous record, any clock reading and whatever failed attempts
precede it, sleeps a duration that is never negative, and when the record it replaces has a
`lastTick` that is not the zero instant (the subsequent-call path) the duration is at least
the slack. -/
theorem slack_floor (rate perTime : Int) (l : LeakybuckerLimiter) (failed : List Attempt)
    (old : state) (now : Int)
    (hl : NewLeakyBucketLimiter rate perTime = some l)
    (hf : ∀ a ∈ failed, a.swapped = false) :
    l.slack = 10 ∧
      ∃ r, Wait l (failed ++ [{ now := now, old := old, swapped := true }]) = some r ∧
        0 ≤ r.slept ∧ (old.lastTick ≠ 0 → l.slack ≤ r.slept) := by
  have hs := slack_of_new hl
  have hpos : 0 < l.slack := by omega
  obtain ⟨loc1, h1⟩ := waitLoop_win l { now := now, old := old, swapped := true } rfl
    failed Locals.zero hf
  have hnn := waitLoop_interval_nonneg l hpos _ Locals.zero _ (le_refl 0) h1
  refine ⟨hs, ⟨_, by unfold Wait; rw [h1]; rfl, hnn, ?_⟩⟩
  intro hold
  have hc := slack_le_clamped l old now
  simp only
  rw [loopBody_next l loc1 now old hold hpos]
  exact hc

/-- Witness of C6: at one operation per second, a caller whose first attempt failed and whose
winning attempt is read five seconds after the previous tick. -/
theorem slack_floor_witness :
    perSecond.slack = 10 ∧
      ∃ r, Wait perSecond
          ([{ now := 5000000050, old := { lastTick := 50, sleepfor := 0 }, swapped := false }] ++
            [{ now := 5000000100, old := { lastTick := 100, sleepfor := 0 }
               swapped := true }]) = some r ∧
        0 ≤ r.slept ∧ perSecond.slack ≤ r.slept :=
  match slack_floor 1 1000000000 perSecond
    [{ now := 5000000050, old := { lastTick := 50, sleepfor := 0 }, swapped := false }]
    { lastTick := 100, sleepfor := 0 } 5000000100 (by decide) (by simp) with
  | ⟨hs, r, h1, h2, h3⟩ => ⟨hs, r, h1, h2, h3 (by decide)⟩

/-! ## Pacing of a single caller -/

theorem solo_wait_steady (l : LeakybuckerLimiter) (c : Int) (hs : l.slack = 10)
    (hT : InInt64 l.timePerActions) (h10 : 10 ≤ l.timePerActions) (hc : c ≠ 0) :
    Solo.wait { lim := { l with state := { lastTick := c, sleepfor := 0 } }, clock := c } =
      (c + l.timePerActions,
        { lim := { l with state := { lastTick := c + l.timePerActions, sleepfor := 0 } }
          clock := c + l.timePerActions }) := by
  have hd : clamped { l with state := { lastTick := c, sleepfor := 0 } }
      { lastTick := c, sleepfor := 0 } c = l.timePerActions := by
    unfold clamped debt Duration.add Duration.sub
    have hsub : Time.Sub c c = 0 := by
      rw [timeSub_eq_sub] <;> simp [InInt64, minDuration, maxDuration]
    simp only [hsub, sub_zero, zero_add, wrap64_eq_self hT, wrap64_eq_self (wrap64_inInt64 _), hs]
    rw [if_neg (by omega)]
  unfold Solo.wait
  simp only
  rw [loopBody_next _ _ _ _ hc (by simp [hs]), hd]

theorem solo_waits_steady (l : LeakybuckerLimiter) (hs : l.slack = 10)
    (hT : InInt64 l.timePerActions) (h10 : 10 ≤ l.timePerActions) :
    ∀ (n : Nat) (c : Int), (∀ j : Nat, j < n → c + j * l.timePerActions ≠ 0) →
      Solo.waits n { lim := { l with state := { lastTick := c, sleepfor := 0 } }, clock := c } =
        (List.range n).map fun (k : Nat) => c + ((k : Int) + 1) * l.timePerActions := by
  intro n
  induction n with
  | zero => intro c _; rfl
  | succ n ih =>
    intro c hc
    have hc0 : c ≠ 0 := by simpa using hc 0 (Nat.succ_pos n)
    have hnext : ∀ j : Nat, j < n → c + l.timePerActions + j * l.timePerActions ≠ 0 := by
      intro j hj
      have := hc (j + 1) (Nat.succ_lt_succ hj)
      push_cast at this
      intro h0
      apply this
      linarith
    rw [Solo.waits, solo_wait_steady l c hs hT h10 hc0]
    simp only
    rw [ih (c + l.timePerActions) hnext, List.range_succ_eq_map, List.map_cons, List.map_map]
    congr 1
    · simp
    · apply List.map_congr_left
      intro k _
      simp only [Function.comp, Nat.succ_eq_add_one]
      push_cast
      ring

theorem solo_waits_closed_form (l : LeakybuckerLimiter) (now0 : Int) (hs : l.slack = 10)
    (hst : l.state = { lastTick := 0, sleepfor := 0 })
    (hT : InInt64 l.timePerActions) (h10 : 10 ≤ l.timePerActions) (n : Nat)
    (hc : ∀ j : Nat, j + 1 < n → now0 + j * l.timePerActions ≠ 0) :
    Solo.waits n { lim := l, clock := now0 } =
      (List.range n).map fun (k : Nat) => now0 + (k : Int) * l.timePerActions := by
  cases n with
  | zero => rfl
  | succ n =>
    have hfirst : Solo.wait { lim := l, clock := now0 } =
        (now0, { lim := { l with state := { lastTick := now0, sleepfor := 0 } }
                 clock := now0 }) := by
      unfold Solo.wait
      simp only
      rw [loopBody_first _ _ _ _ (by rw [hst])]
      simp [hst, Locals.zero]
    rw [Solo.waits, hfirst]
    simp only
    rw [solo_waits_steady l hs hT h10 n now0 (fun j hj => hc j (Nat.succ_lt_succ hj)),
      List.range_succ_eq_map, List.map_cons, List.map_map]
    congr 1
    simp

/-- Counterexample of C1: at 1000 operations per microsecond the quotient `p / r` is 1 ns,
yet consecutive timestamps are 10 ns (the slack) apart; and with a clock that stands at the
zero instant, at one operation per second, every call returns the zero instant. -/
theorem pacing_fails_below_slack_or_at_zero_instant :
    (NewLeakyBucketLimiter 1000 1000).map (fun l => Solo.waits 4 { lim := l, clock := 100 }) =
        some [100, 110, 120, 130] ∧
      Int.tdiv 1000 1000 = 1 ∧
      (NewLeakyBucketLimiter 1 1000000000).map
          (fun l => Solo.waits 10 { lim := l, clock := 0 }) =
        some [0, 0, 0, 0, 0, 0, 0, 0, 0, 0] := by
  decide

/-- C1, amended: for rate > 0 and a positive period whose quotient `p / r` is at least the
slack of 10 ns, on a limiter built by `NewLeakyBucketLimiter` and used by a single caller
whose clock only `Sleep` advances, provided no call made before the last one reads the zero
instant on the clock, the `n` calls all return and every call after the first returns a
timestamp exactly `p / r` later than the previous call. -/
theorem pacing_single_caller (rate perTime : Int) (l : LeakybuckerLimiter) (now0 : Int)
    (n k : Nat) (hr : 0 < rate) (hp : 0 < perTime) (hmax : perTime ≤ maxDuration)
    (hslack : 10 ≤ Int.tdiv perTime rate)
    (hclock : ∀ j : Nat, j + 1 < n → now0 + j * Int.tdiv perTime rate ≠ 0)
    (hl : NewLeakyBucketLimiter rate perTime = some l) (hk : k + 1 < n) :
    (Solo.waits n { lim := l, clock := now0 }).length = n ∧
      (Solo.waits n { lim := l, clock := now0 }).getD (k + 1) 0
          - (Solo.waits n { lim := l, clock := now0 }).getD k 0 =
        Int.tdiv perTime rate := by
  obtain ⟨hT, -, hin⟩ := interval_of_new_pos hr hp hmax hl
  have hs := slack_of_new hl
  have hst := state_of_new hl
  rw [← hT] at hslack hclock ⊢
  rw [solo_waits_closed_form l now0 hs hst hin hslack n hclock]
  refine ⟨by simp, ?_⟩
  rw [List.getD_eq_getElem _ _ (by simpa using hk),
    List.getD_eq_getElem _ _ (by simp; omega)]
  simp only [List.getElem_map, List.getElem_range]
  push_cast
  ring

/-- Witness of C1: one operation per second, ten calls, clock starting at instant 100; the
difference between the fourth and the fifth timestamp. -/
theorem pacing_single_caller_witness :
    (Solo.waits 10
        { lim := { state := { lastTick := 0, sleepfor := 0 }
                   timePerActions := 1000000000, slack := 10 }
          clock := 100 }).length = 10 ∧
      (Solo.waits 10
        { lim := { state := { lastTick := 0, sleepfor := 0 }
                   timePerActions := 1000000000, slack := 10 }
          clock := 100 }).getD (3 + 1) 0
        - (Solo.waits 10
        { lim := { state := { lastTick := 0, sleepfor := 0 }
                   timePerActions := 1000000000, slack := 10 }
          clock := 100 }).getD 3 0 = Int.tdiv 1000000000 1 :=
  pacing_single_caller 1 1000000000
    { state := { lastTick := 0, sleepfor := 0 }, timePerActions := 1000000000, slack := 10 }
    100 10 3 (by decide) (by decide) (by decide) (by decide)
    (fun j _ => by
      have h : (0 : Int) ≤ (j : Int) := Int.ofNat_nonneg j
      have h1 : Int.tdiv 1000000000 1 = 1000000000 := by decide
      rw [h1]
      omega)
    (by decide) (by decide)

/-! ## Spacing and monotonicity -/

/-- Counterexample of C2: with one operation per `maxDuration` and clock readings 10 ns
apart (in the year 2026), the second update schedules `lastTick + maxDuration`; the third
computes a delay that overflows 64 bits, is clamped to the slack, and publishes its reading
plus 10 ns, far less than the previous `lastTick` plus the interval. -/
theorem spacing_fails_on_overflow :
    NewLeakyBucketLimiter 1 maxDuration =
        some { state := { lastTick := 0, sleepfor := 0 }
               timePerActions := 9223372036854775807, slack := 10 } ∧
      reach { state := { lastTick := 0, sleepfor := 0 }
              timePerActions := 9223372036854775807, slack := 10 }
          [63900000000000000050, 63900000000000000060] =
        { lastTick := 73123372036854775857, sleepfor := 0 } ∧
      Wait { state := { lastTick := 0, sleepfor := 0 }
             timePerActions := 9223372036854775807, slack := 10 }
          [{ now := 63900000000000000070
             old := { lastTick := 73123372036854775857, sleepfor := 0 }
             swapped := true }] =
        some { slept := 10, returned := 63900000000000000080
               published := { lastTick := 63900000000000000080, sleepfor := 0 } } ∧
      ¬ ((73123372036854775857 : Int) + 9223372036854775807 ≤ 63900000000000000080) := by
  decide

/-- C2, amended: for every record reachable from a fresh limiter through winning updates
with arbitrary clock readings, a winning update of `Wait` on the subsequent-call path,
whatever failed attempts precede it, publishes and returns a `lastTick` at least the previous
`lastTick` plus `timePerActions`, provided the clock reading is not more than `2^63` ns
before the previous `lastTick` and the delay `timePerActions - (now - lastTick)` does not
exceed `maxDuration`. -/
theorem minimum_spacing (rate perTime : Int) (l : LeakybuckerLimiter) (nows : List Int)
    (failed : List Attempt) (now : Int)
    (hl : NewLeakyBucketLimiter rate perTime = some l)
    (hold : (reach l nows).lastTick ≠ 0)
    (hf : ∀ a ∈ failed, a.swapped = false)
    (hlo : minDuration ≤ now - (reach l nows).lastTick)
    (hhi : l.timePerActions - (now - (reach l nows).lastTick) ≤ maxDuration) :
    ∃ r, Wait l (failed ++ [{ now := now, old := reach l nows, swapped := true }]) = some r ∧
      r.published.lastTick = r.returned ∧
      (reach l nows).lastTick + l.timePerActions ≤ r.returned := by
  have hs := slack_of_new hl
  have hT : InInt64 l.timePerActions := by
    rw [interval_of_new hl]; exact wrap64_inInt64 _
  have h0 : (reach l nows).sleepfor = 0 :=
    reach_sleepfor l (by omega) (by rw [state_of_new hl]) nows
  have hge := clamped_ge_exact l (reach l nows) now hs hT h0 hlo hhi
  refine ⟨_, wait_next l failed (reach l nows) now hold (by omega) hf, rfl, ?_⟩
  simp only
  omega

/-- Witness of C2: one operation per second, first call at instant 100, second call read
at instant 300. -/
theorem minimum_spacing_witness :
    ∃ r, Wait { state := { lastTick := 0, sleepfor := 0 }
                timePerActions := 1000000000, slack := 10 }
        ([] ++ [{ now := 300
                  old := reach { state := { lastTick := 0, sleepfor := 0 }
                                 timePerActions := 1000000000, slack := 10 } [100]
                  swapped := true }]) = some r ∧
      r.published.lastTick = r.returned ∧
      (reach { state := { lastTick := 0, sleepfor := 0 }
               timePerActions := 1000000000, slack := 10 } [100]).lastTick + 1000000000 ≤
        r.returned :=
  minimum_spacing 1 1000000000
    { state := { lastTick := 0, sleepfor := 0 }, timePerActions := 1000000000, slack := 10 }
    [100] [] 300 (by decide) (by decide) (by simp) (by decide) (by decide)

/-- Counterexample of C4: rate 1, period `maxDuration`, increasing clock readings 10 ns
apart (in the year 2026), none before the zero instant: the published `lastTick` goes from
the first reading plus `maxDuration` down to the third reading plus 10 ns. -/
theorem monotonicity_fails_on_overflow :
    NewLeakyBucketLimiter 1 maxDuration =
        some { state := { lastTick := 0, sleepfor := 0 }
               timePerActions := 9223372036854775807, slack := 10 } ∧
      [1, 2, 3].map (fun n =>
          (reach { state := { lastTick := 0, sleepfor := 0 }
                   timePerActions := 9223372036854775807, slack := 10 }
            ([63900000000000000050, 63900000000000000060, 63900000000000000070].take
              n)).lastTick) =
        [63900000000000000050, 73123372036854775857, 63900000000000000080] ∧
      ¬ ((73123372036854775857 : Int) ≤ 63900000000000000080) := by
  decide

/-- C4, amended: for a limiter built with rate > 0 and period > 0, from every record
reached by winning updates whose clock readings are not before the zero instant, a winning
update with such a reading publishes a `lastTick` not smaller than the previous one,
provided the delay `timePerActions - (now - lastTick)` does not exceed `maxDuration`. -/
theorem lastTick_monotone (rate perTime : Int) (l : LeakybuckerLimiter) (nows : List Int)
    (now : Int) (hr : 0 < rate) (hp : 0 < perTime) (hmax : perTime ≤ maxDuration)
    (hl : NewLeakyBucketLimiter rate perTime = some l)
    (hn : ∀ t ∈ nows, 0 ≤ t) (hnow : 0 ≤ now)
    (hhi : l.timePerActions - (now - (reach l nows).lastTick) ≤ maxDuration) :
    (reach l nows).lastTick ≤ (reach l (nows ++ [now])).lastTick := by
  obtain ⟨-, hT0, hT⟩ := interval_of_new_pos hr hp hmax hl
  have hs := slack_of_new hl
  have hst := state_of_new hl
  have h0 : (reach l nows).sleepfor = 0 := reach_sleepfor l (by omega) (by rw [hst]) nows
  have hpos : 0 ≤ (reach l nows).lastTick :=
    reach_lastTick_nonneg l (by omega) (by rw [hst]) nows hn
  have hstep : reach l (nows ++ [now]) = update l (reach l nows) now := by
    simp [reach, List.foldl_append]
  rw [hstep]
  by_cases hz : (reach l nows).lastTick = 0
  · rw [update_first l _ now hz, hz]
    exact hnow
  · have hlo : minDuration ≤ now - (reach l nows).lastTick := by
      unfold minDuration
      unfold maxDuration at hhi
      omega
    have hge := clamped_ge_exact l (reach l nows) now hs hT h0 hlo hhi
    rw [update_next l _ now hz (by omega)]
    simp only
    omega

/-- Witness of C4: one operation per second, calls read at instants 100 and 300, then a
call read at instant 200, before the published `lastTick`. -/
theorem lastTick_monotone_witness :
    (reach { state := { lastTick := 0, sleepfor := 0 }
             timePerActions := 1000000000, slack := 10 } [100, 300]).lastTick ≤
      (reach { state := { lastTick := 0, sleepfor := 0 }
               timePerActions := 1000000000, slack := 10 } ([100, 300] ++ [200])).lastTick :=
  lastTick_monotone 1 1000000000
    { state := { lastTick := 0, sleepfor := 0 }, timePerActions := 1000000000, slack := 10 }
    [100, 300] 200 (by decide) (by decide) (by decide) (by decide) (by decide) (by decide)
    (by decide)

/-! ## The subsequent-call transition -/

/-- Counterexample of C10: one operation per `maxDuration`, previous record
`(73123372036854775857, 0)` (scheduled `maxDuration` after a call in the year 2026), clock
reading 20 ns after that call: `Wait` sleeps 10 and returns the reading plus 10, while the
exact `max(slack, pendingSleep + interval - (now - lastTick))` is `2^64 - 22` and
`max(lastTick + interval, now + slack)` is `lastTick + interval`. -/
theorem transition_differs_on_overflow :
    Wait { state := { lastTick := 0, sleepfor := 0 }
           timePerActions := 9223372036854775807, slack := 10 }
        [{ now := 63900000000000000070
           old := { lastTick := 73123372036854775857, sleepfor := 0 }
           swapped := true }] =
      some { slept := 10, returned := 63900000000000000080
             published := { lastTick := 63900000000000000080, sleepfor := 0 } } ∧
    specDelay { state := { lastTick := 0, sleepfor := 0 }
                timePerActions := 9223372036854775807, slack := 10 }
        { lastTick := 73123372036854775857, sleepfor := 0 } 63900000000000000070 =
      18446744073709551594 ∧
    max ((73123372036854775857 : Int) + 9223372036854775807) (63900000000000000070 + 10) =
      82346744073709551664 := by
  decide

/-- C10, amended: for every record `old` whose `lastTick` is not the zero instant and every
clock reading `now` for which `now - old.lastTick` and
`old.sleepfor + timePerActions - (now - old.lastTick)` are representable in 64 bits, a
winning update of `Wait`, whatever failed attempts precede it, sleeps
`d = max(slack, old.sleepfor + timePerActions - (now - old.lastTick))`, publishes
`(now + d, 0)` and returns `now + d`; when `old.sleepfor = 0` that timestamp is
`max(old.lastTick + timePerActions, now + slack)`. -/
theorem subsequent_call_transition (rate perTime : Int) (l : LeakybuckerLimiter)
    (failed : List Attempt) (old : state) (now : Int)
    (hl : NewLeakyBucketLimiter rate perTime = some l)
    (hold : old.lastTick ≠ 0)
    (hf : ∀ a ∈ failed, a.swapped = false)
    (h1 : InInt64 (now - old.lastTick))
    (h2 : InInt64 (old.sleepfor + l.timePerActions - (now - old.lastTick))) :
    Wait l (failed ++ [{ now := now, old := old, swapped := true }]) =
        some { slept := specDelay l old now
               returned := now + specDelay l old now
               published := { lastTick := now + specDelay l old now, sleepfor := 0 } } ∧
      (old.sleepfor = 0 →
        now + specDelay l old now = max (old.lastTick + l.timePerActions) (now + l.slack)) := by
  have hs := slack_of_new hl
  have hc : clamped l old now = specDelay l old now := clamped_eq_max l old now h1 h2
  refine ⟨?_, ?_⟩
  · rw [wait_next l failed old now hold (by omega) hf, hc]
  · intro h0
    unfold specDelay
    rw [h0]
    rcases le_total l.slack (0 + l.timePerActions - (now - old.lastTick)) with h | h
    · rw [max_eq_right h, max_eq_left (by omega)]
      ring
    · rw [max_eq_left h, max_eq_right (by omega)]

/-- Witness of C10: one operation per second, previous record `(100, 0)`, a failed attempt
followed by a winning one read at instant 300. -/
theorem subsequent_call_transition_witness :
    Wait { state := { lastTick := 0, sleepfor := 0 }
           timePerActions := 1000000000, slack := 10 }
        ([{ now := 250, old := { lastTick := 50, sleepfor := 0 }, swapped := false }] ++
          [{ now := 300, old := { lastTick := 100, sleepfor := 0 }, swapped := true }]) =
        some { slept := specDelay { state := { lastTick := 0, sleepfor := 0 }
                                    timePerActions := 1000000000, slack := 10 }
                          { lastTick := 100, sleepfor := 0 } 300
               returned := 300 + specDelay { state := { lastTick := 0, sleepfor := 0 }
                                             timePerActions := 1000000000, slack := 10 }
                                   { lastTick := 100, sleepfor := 0 } 300
               published :=
                 { lastTick := 300 + specDelay { state := { lastTick := 0, sleepfor := 0 }
                                                 timePerActions := 1000000000, slack := 10 }
                                       { lastTick := 100, sleepfor := 0 } 300
                   sleepfor := 0 } } ∧
      ((0 : Int) = 0 →
        300 + specDelay { state := { lastTick := 0, sleepfor := 0 }
                          timePerActions := 1000000000, slack := 10 }
                { lastTick := 100, sleepfor := 0 } 300 =
          max ((100 : Int) + 1000000000) (300 + 10)) :=
  subsequent_call_transition 1 1000000000
    { state := { lastTick := 0, sleepfor := 0 }, timePerActions := 1000000000, slack := 10 }
    [{ now := 250, old := { lastTick := 50, sleepfor := 0 }, swapped := false }]
    { lastTick := 100, sleepfor := 0 } 300 (by decide) (by decide) (by simp) (by decide)
    (by decide)

/-! ## Concurrent callers -/

/-- C9: when `m` callers each call `Wait` once on one limiter, under any interleaving of
their loads and compare-and-swaps: the interleaving has at most `m * (2 * m + 2)` steps; as
long as a caller has not left the loop one of its steps can be taken; and once all callers
have left the loop exactly `m` compare-and-swaps have succeeded, made by pairwise distinct
callers and replacing pairwise distinct pointers (no two winners for one snapshot), and the
record the shared pointer refers to is the result of applying the `m` winning updates one
after the other, in the order they won, to the record of the constructor (no update is
lost). -/
theorem concurrent_waits_all_win_once (l : LeakybuckerLimiter) (m : Nat) (steps : List Step)
    (s : Shared) (hrun : Shared.run l (Shared.init m) steps = some s) :
    steps.length ≤ m * (2 * m + 2) ∧
      (∀ c ∈ s.callers, c.allowed = false → ∃ a s1, s.step l a = some s1) ∧
      ((∀ c ∈ s.callers, c.allowed = true) →
        s.wins.length = m ∧ (s.wins.map Win.caller).Nodup ∧ (s.wins.map Win.prev).Nodup ∧
          (s.wins.map Win.now).length = m ∧
          deref l s.callers s.ptr = reach l (s.wins.map Win.now)) := by
  have hinv : Shared.Inv l m s := inv_run steps _ s (inv_init l m) hrun
  refine ⟨?_, fun c hc ha => step_enabled l s c hc ha, ?_⟩
  · have := fuel_run steps _ s (inv_init l m) hrun
    rw [fuel_init] at this
    omega
  intro hdone
  have hperm : (s.wins.map Win.caller).Perm (List.range m) := by
    refine (List.perm_ext_iff_of_nodup hinv.nodupCaller (List.nodup_range m)).2 ?_
    intro i
    rw [List.mem_range]
    constructor
    · intro hi
      obtain ⟨w, hw, hwi⟩ := List.mem_map.1 hi
      obtain ⟨c, hc, -⟩ := hinv.winDone w hw
      obtain ⟨hlt, -⟩ := List.getElem?_eq_some.1 hc
      rw [hinv.len, hwi] at hlt
      exact hlt
    · intro hi
      have hlt : i < s.callers.length := by rw [hinv.len]; exact hi
      have hget : s.callers[i]? = some s.callers[i] := List.getElem?_eq_getElem hlt
      exact hinv.doneWin i _ hget (hdone _ (List.getElem_mem hlt))
  have hlen : s.wins.length = m := by
    have := hperm.length_eq
    simpa using this
  exact ⟨hlen, hinv.nodupCaller, (List.nodup_cons.1 hinv.nodupPrev).2, by simpa using hlen,
    hinv.lin⟩

/-- Witness of C9: three callers at one operation per second; caller 0 loads first, loses
its compare-and-swap to caller 1, and wins last after caller 2. -/
theorem concurrent_waits_all_win_once_witness :
    Shared.run perSecond (Shared.init 3) threeCallers = some threeCallersEnd ∧
      (∀ c ∈ threeCallersEnd.callers, c.allowed = true) ∧
      threeCallers.length ≤ 3 * (2 * 3 + 2) ∧
      (threeCallersEnd.wins.length = 3 ∧ (threeCallersEnd.wins.map Win.caller).Nodup ∧
        (threeCallersEnd.wins.map Win.prev).Nodup ∧
        (threeCallersEnd.wins.map Win.now).length = 3 ∧
        deref perSecond threeCallersEnd.callers threeCallersEnd.ptr =
          reach perSecond (threeCallersEnd.wins.map Win.now)) :=
  ⟨by decide, by decide,
    (concurrent_waits_all_win_once perSecond 3 threeCallers threeCallersEnd (by decide)).1,
    (concurrent_waits_all_win_once perSecond 3 threeCallers threeCallersEnd (by decide)).2.2
      (by decide)⟩

/-! ## The duration slept after a lost race -/

/-- Counterexample of C5: a limiter of `NewLeakyBucketLimiter(10, 1000)` (interval 100 ns)
and three callers with clock readings before the zero instant.  Caller 0 publishes
`lastTick = -100`; caller 1 reads -96 and publishes `lastTick = 0`, the zero instant; caller
2 first reads -95, computes the interval 95 and loses its compare-and-swap to caller 1, then
reads -94, finds the zero instant, takes the first-call branch and wins.  It sleeps the 95 ns
of its failed attempt, not zero, and returns -94, which is not its reading plus what it
slept. -/
theorem stale_interval_after_lost_race :
    NewLeakyBucketLimiter 10 1000 =
        some { state := { lastTick := 0, sleepfor := 0 }, timePerActions := 100, slack := 10 } ∧
      (Shared.run
          { state := { lastTick := 0, sleepfor := 0 }, timePerActions := 100, slack := 10 }
          (Shared.init 3)
          [Step.load 0 (-100), Step.cas 0, Step.load 1 (-96), Step.load 2 (-95), Step.cas 1,
            Step.cas 2, Step.load 2 (-94), Step.cas 2]).map
          (fun s => s.callers.map fun c => (c.seen, Caller.result c)) =
        some
          [([{ now := -100, old := { lastTick := 0, sleepfor := 0 }, swapped := true }],
              some { slept := 0, returned := -100
                     published := { lastTick := -100, sleepfor := 0 } }),
            ([{ now := -96, old := { lastTick := -100, sleepfor := 0 }, swapped := true }],
              some { slept := 96, returned := 0, published := { lastTick := 0, sleepfor := 0 } }),
            ([{ now := -95, old := { lastTick := -100, sleepfor := 0 }, swapped := false },
               { now := -94, old := { lastTick := 0, sleepfor := 0 }, swapped := true }],
              some { slept := 95, returned := -94
                     published := { lastTick := -94, sleepfor := 0 } })] ∧
      Wait { state := { lastTick := 0, sleepfor := 0 }, timePerActions := 100, slack := 10 }
          [{ now := -95, old := { lastTick := -100, sleepfor := 0 }, swapped := false },
            { now := -94, old := { lastTick := 0, sleepfor := 0 }, swapped := true }] =
        some { slept := 95, returned := -94, published := { lastTick := -94, sleepfor := 0 } } ∧
      (loopBody
          { state := { lastTick := 0, sleepfor := 0 }, timePerActions := 100, slack := 10 }
          Locals.zero (-94) { lastTick := 0, sleepfor := 0 }).interval = 0 ∧
      (-94 : Int) + 95 ≠ -94 := by
  decide

/-- C5, amended: on a limiter built by `NewLeakyBucketLimiter`, when no clock reading is
before the zero instant, every caller that has left the loop, under any interleaving and
whatever number of failed compare-and-swap attempts precede its winning attempt, passes to
`Sleep` the interval computed in the winning attempt (zero when that attempt took the
first-call branch) and returns that attempt's clock reading plus the duration slept. -/
theorem slept_is_winning_interval (rate perTime : Int) (l : LeakybuckerLimiter) (m : Nat)
    (steps : List Step) (s : Shared) (c : Caller)
    (hl : NewLeakyBucketLimiter rate perTime = some l)
    (hclock : ∀ i now, Step.load i now ∈ steps → 0 ≤ now)
    (hrun : Shared.run l (Shared.init m) steps = some s)
    (hc : c ∈ s.callers) (hall : c.allowed = true) :
    ∃ failed win, c.seen = failed ++ [win] ∧ win.swapped = true ∧
      Caller.result c =
        some { slept := winInterval l win.old win.now
               returned := win.now + winInterval l win.old win.now
               published := c.loc.newState } := by
  have hs : 0 < l.slack := by rw [slack_of_new hl]; decide
  obtain ⟨i, hi, hget⟩ := List.getElem_of_mem hc
  have hsome : s.callers[i]? = some c := by
    rw [List.getElem?_eq_getElem hi, hget]
  have hck := clocked_run hs steps _ s (inv_init l m) (clocked_init l m) hclock hrun
  obtain ⟨failed, win, hseen, hwin, h1, h2⟩ := hck.doneRes i c hsome hall
  refine ⟨failed, win, hseen, hwin, ?_⟩
  unfold Caller.result
  rw [if_pos hall, h2, h1]

/-- Witness of C5: caller 0 of `threeCallers`, at one operation per second: its first
attempt, on the first-call branch, fails; its second attempt wins and sets the interval. -/
theorem slept_is_winning_interval_witness :
    ∃ failed win, lateCaller.seen = failed ++ [win] ∧ win.swapped = true ∧
      Caller.result lateCaller =
        some { slept := winInterval perSecond win.old win.now
               returned := win.now + winInterval perSecond win.old win.now
               published := lateCaller.loc.newState } :=
  slept_is_winning_interval 1 1000000000 perSecond 3 threeCallers threeCallersEnd lateCaller
    (by decide)
    (fun i now h => by
      simp only [threeCallers, List.mem_cons, Step.load.injEq, List.mem_singleton,
        List.not_mem_nil, or_false, false_or, reduceCtorEq] at h
      omega)
    (by decide) (by decide) (by decide)

/-! ## Published debt -/

/-- C12: every record reachable from a freshly built limiter through winning updates of
`Wait`, with arbitrary clock readings, has `sleepfor` equal to 0, hence not negative; the
same holds of the record the shared pointer refers to in every state concurrent callers can
reach. -/
theorem published_debt_is_zero (rate perTime : Int) (l : LeakybuckerLimiter)
    (nows : List Int) (hl : NewLeakyBucketLimiter rate perTime = some l) :
    (reach l nows).sleepfor = 0 ∧ 0 ≤ (reach l nows).sleepfor ∧
      ∀ (m : Nat) (steps : List Step) (s : Shared),
        Shared.run l (Shared.init m) steps = some s →
          (deref l s.callers s.ptr).sleepfor = 0 := by
  have hs : 0 < l.slack := by rw [slack_of_new hl]; decide
  have hst : l.state.sleepfor = 0 := by rw [state_of_new hl]
  have h0 : ∀ ns : List Int, (reach l ns).sleepfor = 0 := reach_sleepfor l hs hst
  refine ⟨h0 nows, ?_, ?_⟩
  · rw [h0 nows]
  · intro m steps s hrun
    have hinv : Shared.Inv l m s := inv_run steps _ s (inv_init l m) hrun
    rw [hinv.lin]
    exact h0 _

/-- Witness of C12: one operation per second; a first call, a late call and a call read
before the published `lastTick`; and the three concurrent callers of `threeCallers`. -/
theorem published_debt_is_zero_witness :
    (reach perSecond [100, 5000000100, 5000000105]).sleepfor = 0 ∧
      0 ≤ (reach perSecond [100, 5000000100, 5000000105]).sleepfor ∧
      (deref perSecond threeCallersEnd.callers threeCallersEnd.ptr).sleepfor = 0 :=
  ⟨(published_debt_is_zero 1 1000000000 perSecond [100, 5000000100, 5000000105]
      (by decide)).1,
    (published_debt_is_zero 1 1000000000 perSecond [100, 5000000100, 5000000105]
      (by decide)).2.1,
    (published_debt_is_zero 1 1000000000 perSecond [100, 5000000100, 5000000105]
      (by decide)).2.2 3 threeCallers threeCallersEnd (by decide)⟩

/-! ## The schedule of callers that arrive early -/

theorem clamped_on_schedule (l : LeakybuckerLimiter) (c now : Int) (hs : l.slack = 10)
    (hT : InInt64 l.timePerActions) (h10 : 10 ≤ l.timePerActions)
    (hobs : now ≤ c + l.timePerActions - 10)
    (hfit : c + l.timePerActions - now ≤ maxDuration) :
    clamped l { lastTick := c, sleepfor := 0 } now = c + l.timePerActions - now := by
  unfold InInt64 minDuration maxDuration at hT
  unfold maxDuration at hfit
  unfold clamped debt Duration.add Duration.sub Time.Sub wrap64 minDuration maxDuration
  rw [hs]
  simp only
  split_ifs <;> omega

theorem foldl_on_schedule (l : LeakybuckerLimiter) (hs : l.slack = 10)
    (hT : InInt64 l.timePerActions) (h10 : 10 ≤ l.timePerActions) :
    ∀ (nows : List Int) (c : Int),
      (∀ (j : Nat) (now : Int), nows[j]? = some now →
        now ≤ c + j * l.timePerActions + l.timePerActions - 10 ∧
          c + j * l.timePerActions + l.timePerActions - now ≤ maxDuration) →
      (∀ j : Nat, j < nows.length → c + j * l.timePerActions ≠ 0) →
      nows.foldl (update l) { lastTick := c, sleepfor := 0 } =
        { lastTick := c + nows.length * l.timePerActions, sleepfor := 0 } := by
  intro nows
  induction nows with
  | nil => intro c _ _; simp
  | cons now rest ih =>
    intro c hobs hnz
    have hc : c ≠ 0 := by simpa using hnz 0 (by simp)
    have h0 := hobs 0 now (by simp)
    simp only [Nat.cast_zero, zero_mul, add_zero] at h0
    have hstep : update l { lastTick := c, sleepfor := 0 } now =
        { lastTick := c + l.timePerActions, sleepfor := 0 } := by
      rw [update_next l _ now hc (by omega), clamped_on_schedule l c now hs hT h10 h0.1 h0.2]
      simp
    rw [List.foldl_cons, hstep, ih (c + l.timePerActions)]
    · simp only [List.length_cons, Nat.cast_add, Nat.cast_one, state.mk.injEq, and_true]
      ring
    · intro j x hx
      have := hobs (j + 1) x (by simpa using hx)
      push_cast at this
      constructor <;> linarith [this.1, this.2]
    · intro j hj
      have := hnz (j + 1) (by simpa using hj)
      push_cast at this
      intro h
      apply this
      linarith

theorem reach_on_schedule (l : LeakybuckerLimiter) (t0 : Int) (nows : List Int)
    (hs : l.slack = 10) (hst : l.state = { lastTick := 0, sleepfor := 0 })
    (hT : InInt64 l.timePerActions) (h10 : 10 ≤ l.timePerActions)
    (hobs : ∀ (j : Nat) (now : Int), nows[j]? = some now →
      now ≤ t0 + j * l.timePerActions + l.timePerActions - 10 ∧
        t0 + j * l.timePerActions + l.timePerActions - now ≤ maxDuration)
    (hnz : ∀ j : Nat, j < nows.length → t0 + j * l.timePerActions ≠ 0) :
    reach l (t0 :: nows) =
      { lastTick := t0 + nows.length * l.timePerActions, sleepfor := 0 } := by
  unfold reach
  rw [List.foldl_cons, update_first l l.state t0 (by rw [hst]), hst]
  exact foldl_on_schedule l hs hT h10 nows t0 hobs hnz

/-- Counterexample of C11: at one operation per second with the clock at the zero instant,
the first call returns `t0 = 0` and the next update, reading 0, sleeps 0 and returns 0, not
`t0 + T`; and at one operation per `maxDuration`, after a first call at `t` and an update
read at `t + 10` (scheduled at `t + T`), the update read at `t + 20`, before the previous
`lastTick`, sleeps 10 and returns `t + 30`, not `t + 2 * T`. -/
theorem schedule_fails_at_zero_instant_or_on_overflow :
    (reach perSecond [0] = { lastTick := 0, sleepfor := 0 } ∧
      (0 : Int) ≤ 0 + 1000000000 - 10 ∧
      Wait perSecond [{ now := 0, old := reach perSecond [0], swapped := true }] =
        some { slept := 0, returned := 0, published := { lastTick := 0, sleepfor := 0 } } ∧
      (0 : Int) + 1 * 1000000000 ≠ 0) ∧
    (NewLeakyBucketLimiter 1 maxDuration =
        some { state := { lastTick := 0, sleepfor := 0 }
               timePerActions := 9223372036854775807, slack := 10 } ∧
      reach { state := { lastTick := 0, sleepfor := 0 }
              timePerActions := 9223372036854775807, slack := 10 }
          [63900000000000000050, 63900000000000000060] =
        { lastTick := 63900000000000000050 + 1 * 9223372036854775807, sleepfor := 0 } ∧
      (63900000000000000070 : Int) ≤
        63900000000000000050 + 1 * 9223372036854775807 + 9223372036854775807 - 10 ∧
      Wait { state := { lastTick := 0, sleepfor := 0 }
             timePerActions := 9223372036854775807, slack := 10 }
          [{ now := 63900000000000000070
             old := { lastTick := 73123372036854775857, sleepfor := 0 }
             swapped := true }] =
        some { slept := 10, returned := 63900000000000000080
               published := { lastTick := 63900000000000000080, sleepfor := 0 } } ∧
      (63900000000000000050 : Int) + 2 * 9223372036854775807 ≠ 63900000000000000080) := by
  decide

/-- C11, amended: for a limiter built by `NewLeakyBucketLimiter` with interval `T` at least
the slack, whose first call returned `t0`, if each of the next winning updates observes a
clock reading no later than the previous `lastTick + T - slack` (after or before the previous
`lastTick`), needs a delay `lastTick + T - now` of at most `maxDuration`, and replaces a
`lastTick` that is not the zero instant, then after `j` of those updates the published
`lastTick` is exactly `t0 + j * T`, and the next one, whatever failed attempts precede it,
sleeps exactly `lastTick + T - now` and returns `t0 + (j + 1) * T`. -/
theorem drift_free_schedule (rate perTime : Int) (l : LeakybuckerLimiter) (t0 : Int)
    (nows : List Int) (failed : List Attempt)
    (hl : NewLeakyBucketLimiter rate perTime = some l)
    (hT : l.slack ≤ l.timePerActions)
    (hf : ∀ a ∈ failed, a.swapped = false)
    (hobs : ∀ (j : Nat) (now : Int), nows[j]? = some now →
      now ≤ t0 + j * l.timePerActions + l.timePerActions - l.slack)
    (hfit : ∀ (j : Nat) (now : Int), nows[j]? = some now →
      t0 + j * l.timePerActions + l.timePerActions - now ≤ maxDuration)
    (hnz : ∀ j : Nat, j < nows.length → t0 + j * l.timePerActions ≠ 0) :
    (∀ j : Nat, j ≤ nows.length →
        reach l (t0 :: nows.take j) =
          { lastTick := t0 + j * l.timePerActions, sleepfor := 0 }) ∧
      ∀ (j : Nat) (now : Int), nows[j]? = some now →
        Wait l (failed ++
            [{ now := now, old := reach l (t0 :: nows.take j), swapped := true }]) =
          some { slept := t0 + j * l.timePerActions + l.timePerActions - now
                 returned := t0 + (j + 1) * l.timePerActions
                 published :=
                   { lastTick := t0 + (j + 1) * l.timePerActions, sleepfor := 0 } } := by
  have hs := slack_of_new hl
  have hst := state_of_new hl
  have hin : InInt64 l.timePerActions := by
    rw [interval_of_new hl]; exact wrap64_inInt64 _
  have h10 : 10 ≤ l.timePerActions := by omega
  have hinit : ∀ j : Nat, j ≤ nows.length →
      reach l (t0 :: nows.take j) =
        { lastTick := t0 + j * l.timePerActions, sleepfor := 0 } := by
    intro j hj
    have hlen : (nows.take j).length = j := by
      rw [List.length_take]; exact Nat.min_eq_left hj
    have hget : ∀ (i : Nat) (x : Int), (nows.take j)[i]? = some x → nows[i]? = some x := by
      intro i x hx
      rw [List.getElem?_take] at hx
      split_ifs at hx
      exact hx
    have := reach_on_schedule l t0 (nows.take j) hs hst hin h10
      (fun i x hx => by
        have h1 := hobs i x (hget i x hx)
        have h2 := hfit i x (hget i x hx)
        rw [hs] at h1
        exact ⟨h1, h2⟩)
      (fun i hi => hnz i (by rw [hlen] at hi; omega))
    rw [this, hlen]
  refine ⟨hinit, ?_⟩
  intro j now hj
  have hlt : j < nows.length := (List.getElem?_eq_some.1 hj).1
  have h1 := hobs j now hj
  rw [hs] at h1
  rw [hinit j (le_of_lt hlt),
    wait_next l failed _ now (hnz j hlt) (by omega) hf,
    clamped_on_schedule l _ now hs hin h10 h1 (hfit j now hj)]
  simp only [Option.some.injEq, WaitResult.mk.injEq, state.mk.injEq, and_true, true_and]
  constructor <;> ring

/-- Witness of C11: one operation per second, first call at instant 100, then a call read at
once, a call read 50 ns before the previous `lastTick`, and a call read 0.4 s after it. -/
theorem drift_free_schedule_witness :
    (∀ j : Nat, j ≤ [100, 1000000050, 2400000100].length →
        reach perSecond (100 :: [100, 1000000050, 2400000100].take j) =
          { lastTick := 100 + j * perSecond.timePerActions, sleepfor := 0 }) ∧
      ∀ (j : Nat) (now : Int), [100, 1000000050, 2400000100][j]? = some now →
        Wait perSecond ([] ++
            [{ now := now
               old := reach perSecond (100 :: [100, 1000000050, 2400000100].take j)
               swapped := true }]) =
          some { slept := 100 + j * perSecond.timePerActions + perSecond.timePerActions - now
                 returned := 100 + (j + 1) * perSecond.timePerActions
                 published :=
                   { lastTick := 100 + (j + 1) * perSecond.timePerActions
                     sleepfor := 0 } } :=
  drift_free_schedule 1 1000000000 perSecond 100 [100, 1000000050, 2400000100] []
    (by decide) (by decide) (by simp)
    (fun j now h => by
      rcases j with _ | _ | _ | j
      all_goals simp at h
      all_goals subst h
      all_goals decide)
    (fun j now h => by
      rcases j with _ | _ | _ | j
      all_goals simp at h
      all_goals subst h
      all_goals decide)
    (fun j _ => by
      have h : (0 : Int) ≤ (j : Int) := Int.ofNat_nonneg j
      have h1 : perSecond.timePerActions = 1000000000 := rfl
      rw [h1]
      omega)

/-! ## The late caller -/

theorem clamped_late (l : LeakybuckerLimiter) (old : state) (now : Int) (hs : l.slack = 10)
    (hT : InInt64 l.timePerActions) (hT0 : 0 ≤ l.timePerActions) (h0 : old.sleepfor = 0)
    (hlate : l.timePerActions - 10 ≤ now - old.lastTick) :
    clamped l old now = 10 := by
  unfold InInt64 minDuration maxDuration at hT
  unfold clamped debt Duration.add Duration.sub Time.Sub wrap64 minDuration maxDuration
  rw [hs, h0]
  split_ifs <;> omega

/-- Counterexample of C13: with the negative interval of `NewLeakyBucketLimiter(1, -100)`, a
caller arriving `maxDuration` after the previous `lastTick` sleeps `2^63 - 99` ns, not the
slack; at one operation per `maxDuration`, after a late caller read at `t + maxDuration`
(returning `t + maxDuration + 10`), a following call read 5 ns later is scheduled 5 ns after
that timestamp, not a full interval; and at one operation per second with readings before
the zero instant, the late caller read at -10 returns the zero instant and a following call
read at 5 returns 5. -/
theorem late_caller_fails_on_overflow_or_zero_instant :
    (NewLeakyBucketLimiter 1 (-100) =
        some { state := { lastTick := 0, sleepfor := 0 }, timePerActions := -100, slack := 10 } ∧
      reach { state := { lastTick := 0, sleepfor := 0 }, timePerActions := -100, slack := 10 }
          [63900000000000000050] = { lastTick := 63900000000000000050, sleepfor := 0 } ∧
      (-100 : Int) - 10 ≤ 73123372036854775857 - 63900000000000000050 ∧
      Wait { state := { lastTick := 0, sleepfor := 0 }, timePerActions := -100, slack := 10 }
          [{ now := 73123372036854775857
             old := { lastTick := 63900000000000000050, sleepfor := 0 }
             swapped := true }] =
        some { slept := 9223372036854775709, returned := 82346744073709551566
               published := { lastTick := 82346744073709551566, sleepfor := 0 } }) ∧
    (NewLeakyBucketLimiter 1 maxDuration =
        some { state := { lastTick := 0, sleepfor := 0 }
               timePerActions := 9223372036854775807, slack := 10 } ∧
      (9223372036854775807 : Int) - 10 ≤ 73123372036854775857 - 63900000000000000050 ∧
      [1, 2, 3].map (fun n =>
          (reach { state := { lastTick := 0, sleepfor := 0 }
                   timePerActions := 9223372036854775807, slack := 10 }
            ([63900000000000000050, 73123372036854775857, 73123372036854775862].take
              n)).lastTick) =
        [63900000000000000050, 73123372036854775867, 73123372036854775872] ∧
      ¬ ((73123372036854775867 : Int) + 9223372036854775807 ≤ 73123372036854775872)) ∧
    ((1000000000 : Int) - 10 ≤ -10 - -2000000000 ∧
      [1, 2, 3].map (fun n => (reach perSecond ([-2000000000, -10, 5].take n)).lastTick) =
        [-2000000000, 0, 5] ∧
      ¬ ((0 : Int) + 1000000000 ≤ 5)) := by
  decide

/-- C13, amended: for a limiter built with rate > 0 and period > 0, for every reachable
record with a non-zero `lastTick` and every clock reading `now` with
`now - lastTick ≥ timePerActions - slack`, however long the limiter was idle, the winning
update sleeps exactly the slack (10 ns) and returns `now + slack`; and when `now + slack` is
not the zero instant, a following winning update whose delay
`timePerActions - (now1 - (now + slack))` does not exceed `maxDuration` is scheduled at
least one full interval after that returned timestamp. -/
theorem late_caller_sleeps_slack (rate perTime : Int) (l : LeakybuckerLimiter)
    (nows : List Int) (failed failed1 : List Attempt) (now now1 : Int)
    (hr : 0 < rate) (hp : 0 < perTime) (hmax : perTime ≤ maxDuration)
    (hl : NewLeakyBucketLimiter rate perTime = some l)
    (hold : (reach l nows).lastTick ≠ 0)
    (hf : ∀ a ∈ failed, a.swapped = false) (hf1 : ∀ a ∈ failed1, a.swapped = false)
    (hlate : l.timePerActions - l.slack ≤ now - (reach l nows).lastTick) :
    l.slack = 10 ∧
      Wait l (failed ++ [{ now := now, old := reach l nows, swapped := true }]) =
        some { slept := l.slack, returned := now + l.slack
               published := { lastTick := now + l.slack, sleepfor := 0 } } ∧
      reach l (nows ++ [now]) = { lastTick := now + l.slack, sleepfor := 0 } ∧
      (now + l.slack ≠ 0 → l.timePerActions - (now1 - (now + l.slack)) ≤ maxDuration →
        ∃ r, Wait l (failed1 ++
            [{ now := now1, old := reach l (nows ++ [now]), swapped := true }]) = some r ∧
          now + l.slack + l.timePerActions ≤ r.returned) := by
  obtain ⟨-, hT0, hT⟩ := interval_of_new_pos hr hp hmax hl
  have hs := slack_of_new hl
  have hst := state_of_new hl
  have h0 : (reach l nows).sleepfor = 0 :=
    reach_sleepfor l (by omega) (by rw [hst]) nows
  have hc : clamped l (reach l nows) now = 10 :=
    clamped_late l (reach l nows) now hs hT hT0 h0 (by rw [hs] at hlate; exact hlate)
  have hnext : reach l (nows ++ [now]) = { lastTick := now + l.slack, sleepfor := 0 } := by
    have : reach l (nows ++ [now]) = update l (reach l nows) now := by
      simp [reach, List.foldl_append]
    rw [this, update_next l _ now hold (by omega), hc, hs]
  refine ⟨hs, ?_, hnext, ?_⟩
  · rw [wait_next l failed (reach l nows) now hold (by omega) hf, hc, hs]
  · intro hnz hfit
    rw [hnext]
    have hlo : minDuration ≤ now1 - (now + l.slack) := by
      unfold minDuration
      unfold maxDuration at hfit
      unfold InInt64 minDuration maxDuration at hT
      omega
    have hge := clamped_ge_exact l { lastTick := now + l.slack, sleepfor := 0 } now1 hs hT rfl
      hlo hfit
    refine ⟨_, wait_next l failed1 _ now1 hnz (by omega) hf1, ?_⟩
    simp only at hge ⊢
    omega

/-- Witness of C13: one operation per second, first call at instant 100, a caller arriving
five seconds later, and a following call read 5 ns after that arrival. -/
theorem late_caller_sleeps_slack_witness :
    perSecond.slack = 10 ∧
      Wait perSecond ([] ++
          [{ now := 5000000100, old := reach perSecond [100], swapped := true }]) =
        some { slept := perSecond.slack, returned := 5000000100 + perSecond.slack
               published := { lastTick := 5000000100 + perSecond.slack, sleepfor := 0 } } ∧
      reach perSecond ([100] ++ [5000000100]) =
        { lastTick := 5000000100 + perSecond.slack, sleepfor := 0 } ∧
      ∃ r, Wait perSecond ([] ++
          [{ now := 5000000105, old := reach perSecond ([100] ++ [5000000100])
             swapped := true }]) = some r ∧
        5000000100 + perSecond.slack + perSecond.timePerActions ≤ r.returned :=
  ⟨(late_caller_sleeps_slack 1 1000000000 perSecond [100] [] [] 5000000100 5000000105
      (by decide) (by decide) (by decide) (by decide) (by decide) (by simp) (by simp)
      (by decide)).1,
    (late_caller_sleeps_slack 1 1000000000 perSecond [100] [] [] 5000000100 5000000105
      (by decide) (by decide) (by decide) (by decide) (by decide) (by simp) (by simp)
      (by decide)).2.1,
    (late_caller_sleeps_slack 1 1000000000 perSecond [100] [] [] 5000000100 5000000105
      (by decide) (by decide) (by decide) (by decide) (by decide) (by simp) (by simp)
      (by decide)).2.2.1,
    (late_caller_sleeps_slack 1 1000000000 perSecond [100] [] [] 5000000100 5000000105
      (by decide) (by decide) (by decide) (by decide) (by decide) (by simp) (by simp)
      (by decide)).2.2.2 (by decide) (by decide)⟩

end ElRatio
